import Mathlib

/-! # UTClib and findUTC: timestamp matcher, dedup store and stream scanner

A shallow embedding of `src/UTClib.c` (`valid_date`, `valid_time`, `format_match`,
`make_entry`, `insert_or_match`) and of the read loop of `main` in
`src/findUTC.c`, and the properties of the specification that concern them.

Conventions of the embedding.

* A C `int` is an `Int`. No operation of the embedded functions can overflow: the
  only arithmetic is `month - 1` (after `1 ≤ month ≤ 12`), `days[1]++` and the
  remainders of `year`. The C operator `%` truncates toward zero: `Int.tmod`.
* A C string is the list of its characters before the terminating NUL.
  `strlen` is the length of that list, and a read at an index up to `strlen`
  gives the character there (the NUL at index `strlen`). The store
  `dtstr[20] = 0` keeps the first 20 characters.
* A read of the local array `days` outside `0..11` is undefined behaviour in C;
  the embedding returns `none` there, so `valid_date` and `format_match` are
  `Option`-valued and `some` means that the call is well defined.
* `UTCLIB_DEBUG` only prints; it is left out.
-/

namespace UTClib

/-! ## Types of `UTClib.h` -/

/-- Outcome codes: the enumeration `code_t`. -/
inductive code_t
  | VALIDATED
  | INVALID_FORMAT
  | INVALID_YEAR
  | INVALID_MONTH
  | INVALID_DAY
  | INVALID_HOUR
  | INVALID_MINUTE
  | INVALID_SECOND
  | INVALID_TMZ
  | INVALID_REQUEST
  | INVALID_MEMORY
  deriving DecidableEq, Repr

open code_t

/-- Enumerator `UTC8601` of `format_t` (the functions take the format as `int`). -/
def UTC8601 : Int := 0

/-- Enumerator `HHMMSS` of `format_t`. -/
def HHMMSS : Int := 1

/-- Enumerator `HHMM` of `format_t`. -/
def HHMM : Int := 2

/-- Enumerator `YYYYMMDD` of `format_t`. -/
def YYYYMMDD : Int := 3

/-! ## C library functions used by the source -/

/-- Length of a C string, as the `int` the source stores it in. -/
def strlen (s : List Char) : Int := s.length

/-- Read `s[i]` of a C string: the character at `i`, NUL at the terminator. -/
def char_at (s : List Char) (i : Nat) : Char := s.getD i '\x00'

/-- The C classification `isdigit` (C locale): `'0'..'9'`. -/
def isdigit (c : Char) : Bool := decide ('0' ≤ c ∧ c ≤ '9')

/-- The C classification `isspace` (C locale): space, `\t`, `\n`, `\v`, `\f`, `\r`. -/
def isspace (c : Char) : Bool :=
  c = ' ' || c = '\t' || c = '\n' || c = '\x0b' || c = '\x0c' || c = '\r'

/-- Digit loop of `atoi`: accumulate decimal digits until the first non-digit. -/
def atoi_digits (acc : Int) : List Char → Int
  | [] => acc
  | c :: cs =>
    if isdigit c then atoi_digits (acc * 10 + ((c.toNat : Int) - 48)) cs else acc

/-- The C library `atoi`: skip white space, take an optional sign, then read
decimal digits up to the first character that is not one (0 when there is none). -/
def atoi (s : List Char) : Int :=
  match s.dropWhile isspace with
  | '-' :: cs => - atoi_digits 0 cs
  | '+' :: cs => atoi_digits 0 cs
  | cs => atoi_digits 0 cs

/-- Content of `chkval` after `strncpy(chkval, dtstr + k, n)` into the zeroed
five-byte buffer, for `k + n ≤ strlen dtstr` and `n ≤ 4`: the `n` characters from `k`. -/
def strncpy_from (dtstr : List Char) (k n : Nat) : List Char := (dtstr.drop k).take n

/-- Read `a[i]` of a C `int` array: `none` outside the bounds. -/
def array_read (a : List Int) (i : Int) : Option Int :=
  if 0 ≤ i ∧ i < a.length then a.get? i.toNat else none

/-- Index values `lo, lo+1, .., hi-1` of `for (i = lo; i < hi; i++)`. -/
def loop_range (lo hi : Nat) : List Nat := (List.range hi).drop lo

/-! ## `valid_date` -/

/-- Initial value of the local table `int days[12]` of `valid_date`. -/
def days_init : List Int := [31, 28, 31, 30, 31, 30, 31, 31, 30, 31, 30, 31]

/-- The leap-year test of `valid_date`, lines 80-81. -/
def leap_test (year : Int) : Bool :=
  (Int.tmod year 4 = 0 && Int.tmod year 100 ≠ 0)
    || (Int.tmod year 100 = 0 && Int.tmod year 400 = 0)

/-- The table `days` at the day check: `days[1]++` when the leap-year test holds. -/
def days_table (year : Int) : List Int :=
  if leap_test year then days_init.set 1 (days_init.getD 1 0 + 1) else days_init

/-- The function `int valid_date(int format, int year, int month, int day)`; `none`
stands for a read of `days` outside its bounds. -/
def valid_date (format year month day : Int) : Option code_t :=
  if format = YYYYMMDD then
    if format = YYYYMMDD ∧ (year < 0 ∨ year > 9999) then some INVALID_YEAR
    else if month < 1 ∨ month > 12 then some INVALID_MONTH
    else
      match array_read (days_table year) (month - 1) with
      | none => none
      | some dmax => if day > dmax then some INVALID_DAY else some VALIDATED
  else some INVALID_REQUEST

/-! ## `valid_time` -/

/-- The function `int valid_time(int format, int hour, int minute, int second)`: the case
`HHMMSS` checks the second and falls through to the case `HHMM`. -/
def valid_time (format hour minute second : Int) : code_t :=
  if format = HHMMSS ∧ (second > 59 ∨ second < 0) then INVALID_SECOND
  else if format = HHMMSS ∨ format = HHMM then
    if minute > 59 ∨ minute < 0 then INVALID_MINUTE
    else if hour > 23 ∨ hour < 0 then INVALID_HOUR
    else VALIDATED
  else INVALID_REQUEST

/-! ## `format_match` -/

/-- The position table `int chk8601[18]` of `format_match`. -/
def chk8601 : List Nat := [0, 1, 2, 3, 5, 6, 8, 9, 11, 12, 14, 15, 17, 18, 20, 21, 23, 24]

/-- One digit loop of `format_match`: true when `isdigit(dtstr[chk8601[i]])` holds
for every `i` with `lo ≤ i < hi`. -/
def digits_ok (dtstr : List Char) (lo hi : Nat) : Bool :=
  (loop_range lo hi).all (fun i => isdigit (char_at dtstr (chk8601.getD i 0)))

/-- Lines 233-287 of `format_match`: parse the fields with `atoi` and validate them. -/
def format_match_values (dtstr : List Char) (chklen : Int) : Option (code_t × List Char) :=
  let chkyr := atoi (strncpy_from dtstr 0 4)
  let chkmon := atoi (strncpy_from dtstr 5 2)
  let chkday := atoi (strncpy_from dtstr 8 2)
  match valid_date YYYYMMDD chkyr chkmon chkday with
  | none => none
  | some chkret =>
    if chkret ≠ VALIDATED then some (chkret, dtstr)
    else
      let chkhr := atoi (strncpy_from dtstr 11 2)
      let chkmin := atoi (strncpy_from dtstr 14 2)
      let chksec := atoi (strncpy_from dtstr 17 2)
      let chkret := valid_time HHMMSS chkhr chkmin chksec
      if chkret ≠ VALIDATED then some (chkret, dtstr)
      else if chklen = 25 then
        let chktzh := atoi (strncpy_from dtstr 20 2)
        let chktzm := atoi (strncpy_from dtstr 23 2)
        let chkret := valid_time HHMM chktzh chktzm 0
        if chkret ≠ VALIDATED then some (INVALID_TMZ, dtstr)
        else some (VALIDATED, dtstr)
      else some (VALIDATED, dtstr)

/-- Lines 197-232 of `format_match`, after the possible trim at `Z`: the checks of
the timezone designator and the two digit loops. -/
def format_match_checks (dtstr : List Char) (chklen : Int) : Option (code_t × List Char) :=
  if chklen = 25 ∧ (char_at dtstr 22 ≠ ':' ∨ (char_at dtstr 19 ≠ '-' ∧ char_at dtstr 19 ≠ '+'))
  then some (INVALID_TMZ, dtstr)
  else if chklen ≠ 20 ∧ chklen ≠ 25 then some (INVALID_TMZ, dtstr)
  else if digits_ok dtstr 0 14 = false then some (INVALID_FORMAT, dtstr)
  else if chklen = 25 ∧ digits_ok dtstr 15 18 = false then some (INVALID_TMZ, dtstr)
  else format_match_values dtstr chklen

/-- The function `int format_match(char *dtstr, int format)`: the outcome and the C
string left in the buffer `dtstr`; `none` never occurs (see `format_match_defined`). -/
def format_match (dtstr : List Char) (format : Int) : Option (code_t × List Char) :=
  if format = UTC8601 then
    let chklen := strlen dtstr
    if chklen < 20 ∨ chklen > 25 ∨ char_at dtstr 4 ≠ '-' ∨ char_at dtstr 7 ≠ '-'
        ∨ char_at dtstr 10 ≠ 'T' ∨ char_at dtstr 13 ≠ ':' ∨ char_at dtstr 16 ≠ ':'
    then some (INVALID_FORMAT, dtstr)
    else if chklen = 20 ∧ char_at dtstr 19 ≠ 'Z' then some (INVALID_TMZ, dtstr)
    else if char_at dtstr 19 = 'Z' then format_match_checks (dtstr.take 20) 20
    else format_match_checks dtstr chklen
  else some (INVALID_FORMAT, dtstr)


/-! ## The calendar rules in the words of the specification -/

/-- Leap-year rule of the specification: divisible by 4 and not by 100, or
divisible by 400. -/
def spec_leap (y : Int) : Bool := decide ((4 ∣ y ∧ ¬ 100 ∣ y) ∨ 400 ∣ y)

/-- Day count of a month in a year, as the specification lists it:
31/28/31/30/31/30/31/31/30/31/30/31, February 29 in a leap year. -/
def spec_month_days (year month : Int) : Int :=
  if month = 2 then (if spec_leap year then 29 else 28)
  else if month = 4 ∨ month = 6 ∨ month = 9 ∨ month = 11 then 30
  else 31

/-! ## Lemmas on `valid_date` -/

theorem leap_test_eq_spec_leap (y : Int) (h0 : 0 ≤ y) : leap_test y = spec_leap y := by
  have h4 : Int.tmod y 4 = y % 4 := Int.tmod_eq_emod h0 (by decide)
  have h100 : Int.tmod y 100 = y % 100 := Int.tmod_eq_emod h0 (by decide)
  have h400 : Int.tmod y 400 = y % 400 := Int.tmod_eq_emod h0 (by decide)
  unfold leap_test spec_leap
  rw [h4, h100, h400]
  by_cases h : (4 ∣ y ∧ ¬ 100 ∣ y) ∨ 400 ∣ y
  · rw [decide_eq_true h]
    simp only [Bool.or_eq_true, Bool.and_eq_true, decide_eq_true_eq, bne_iff_ne, ne_eq]
    omega
  · rw [decide_eq_false h]
    simp only [Bool.or_eq_false_iff, Bool.and_eq_false_iff, decide_eq_false_iff_not, bne_iff_ne,
      ne_eq, Decidable.not_not]
    omega

theorem days_lookup (year month : Int) (hy : 0 ≤ year) (h1 : 1 ≤ month) (h12 : month ≤ 12) :
    array_read (days_table year) (month - 1) = some (spec_month_days year month) := by
  unfold days_table spec_month_days
  rw [leap_test_eq_spec_leap year hy]
  interval_cases month <;> cases spec_leap year <;> decide

theorem valid_date_eq (year month day : Int) :
    valid_date YYYYMMDD year month day = some (
      if year < 0 ∨ 9999 < year then INVALID_YEAR
      else if month < 1 ∨ 12 < month then INVALID_MONTH
      else if spec_month_days year month < day then INVALID_DAY
      else VALIDATED) := by
  unfold valid_date
  by_cases hy : year < 0 ∨ 9999 < year
  · have hy2 : year < 0 ∨ year > 9999 := hy
    simp [hy, hy2]
  · have hy2 : ¬ (year < 0 ∨ year > 9999) := hy
    by_cases hm : month < 1 ∨ 12 < month
    · have hm2 : month < 1 ∨ month > 12 := hm
      simp [hy, hy2, hm, hm2]
    · have hm2 : ¬ (month < 1 ∨ month > 12) := hm
      rw [days_lookup year month (by omega) (by omega) (by omega)]
      simp only [hy, hy2, hm, hm2, and_false, if_false, if_true, gt_iff_lt]
      split <;> rfl



/-! ## The timestamp grammar in the words of the specification -/

/-- The 14 positions of the year, month, day, hour, minute and second digits. -/
def date_time_positions : List Nat := [0, 1, 2, 3, 5, 6, 8, 9, 11, 12, 14, 15, 17, 18]

/-- The 4 positions of the hour and minute digits of a numeric offset. -/
def offset_positions : List Nat := [20, 21, 23, 24]

/-- Every listed position of the text holds a decimal digit. -/
def all_digits_at (t : List Char) (ps : List Nat) : Prop :=
  ∀ p ∈ ps, isdigit (char_at t p) = true

/-- Separators of the grammar: position 4 and 7 are a dash, 10 is T, 13 and 16 a colon. -/
def separators_ok (t : List Char) : Prop :=
  char_at t 4 = '-' ∧ char_at t 7 = '-' ∧ char_at t 10 = 'T'
    ∧ char_at t 13 = ':' ∧ char_at t 16 = ':'

/-- Decimal value of a list of digit characters. -/
def dec_value (s : List Char) : Int :=
  s.foldl (fun acc c => acc * 10 + ((c.toNat : Int) - 48)) 0

/-- Decimal value of the field of `len` digits that starts at position `pos`. -/
def field_value (t : List Char) (pos len : Nat) : Int :=
  dec_value ((t.drop pos).take len)

/-- The Z form: exactly 20 characters `DDDD-DD-DDTDD:DD:DDZ`. -/
def z_form (t : List Char) : Prop :=
  t.length = 20 ∧ separators_ok t ∧ all_digits_at t date_time_positions ∧ char_at t 19 = 'Z'

/-- The offset form: exactly 25 characters `DDDD-DD-DDTDD:DD:DD`, then `+` or `-`,
then `DD:DD`. -/
def offset_form (t : List Char) : Prop :=
  t.length = 25 ∧ separators_ok t ∧ all_digits_at t date_time_positions
    ∧ (char_at t 19 = '+' ∨ char_at t 19 = '-')
    ∧ all_digits_at t offset_positions ∧ char_at t 22 = ':'

/-- The timezone-designator classification passes: Z at position 19, or length 25
with `+` or `-` at position 19 and a colon at position 22. -/
def tzd_ok (t : List Char) : Prop :=
  char_at t 19 = 'Z'
    ∨ (t.length = 25 ∧ (char_at t 19 = '+' ∨ char_at t 19 = '-') ∧ char_at t 22 = ':')

/-- The text passes the length, separator, timezone-designator and digit checks that
`format_match` makes: a length from 20 to 25, the five separators, the
timezone-designator classification, the 14 date and time digits, and for a
numeric offset the digit loop over `chk8601[15..17]` (positions 21, 23, 24). -/
def passes_checks (t : List Char) : Prop :=
  20 ≤ t.length ∧ t.length ≤ 25 ∧ separators_ok t ∧ tzd_ok t
    ∧ all_digits_at t date_time_positions
    ∧ (char_at t 19 = 'Z' ∨ all_digits_at t [21, 23, 24])

/-- A numeric offset is present: the length is 25 and position 19 is not the Z that
ends the timestamp. -/
def has_offset (t : List Char) : Bool := decide (t.length = 25 ∧ char_at t 19 ≠ 'Z')

/-! ## Lemmas on the library functions -/

theorem isdigit_val (c : Char) (h : isdigit c = true) : 48 ≤ c.toNat ∧ c.toNat ≤ 57 := by
  unfold isdigit at h
  have h2 := of_decide_eq_true h
  exact ⟨h2.1, h2.2⟩

theorem isdigit_not_space (c : Char) (h : isdigit c = true) : isspace c = false := by
  have hv := isdigit_val c h
  unfold isspace
  have ne : ∀ d : Char, d.toNat < 48 → (decide (c = d)) = false := by
    intro d hd
    apply decide_eq_false
    rintro rfl
    omega
  rw [ne ' ' (by decide), ne '\t' (by decide), ne '\n' (by decide), ne '\x0b' (by decide),
    ne '\x0c' (by decide), ne '\r' (by decide)]
  rfl

theorem atoi_digits_eq_foldl (s : List Char) (acc : Int) (h : ∀ c ∈ s, isdigit c = true) :
    atoi_digits acc s = s.foldl (fun acc c => acc * 10 + ((c.toNat : Int) - 48)) acc := by
  induction s generalizing acc with
  | nil => rfl
  | cons c cs ih =>
    have hc : isdigit c = true := h c (List.mem_cons_self c cs)
    simp only [atoi_digits, hc, if_true, List.foldl_cons]
    exact ih _ (fun d hd => h d (List.mem_cons_of_mem c hd))

theorem atoi_eq_dec_value (s : List Char) (h : ∀ c ∈ s, isdigit c = true) :
    atoi s = dec_value s := by
  unfold dec_value
  rw [← atoi_digits_eq_foldl s 0 h]
  cases s with
  | nil => rfl
  | cons c cs =>
    have hc : isdigit c = true := h c (List.mem_cons_self c cs)
    have hv := isdigit_val c hc
    have hdrop : (c :: cs).dropWhile isspace = c :: cs := by
      simp [List.dropWhile, isdigit_not_space c hc]
    unfold atoi
    rw [hdrop]
    split
    · rename_i heq
      injection heq with h1 h2
      subst h1
      exact absurd hv.1 (by decide)
    · rename_i heq
      injection heq with h1 h2
      subst h1
      exact absurd hv.1 (by decide)
    · rfl

theorem drop_eq_char_at_cons (t : List Char) (k : Nat) (h : k < t.length) :
    t.drop k = char_at t k :: t.drop (k + 1) := by
  unfold char_at
  rw [List.getD_eq_getElem t '\x00' h]
  exact List.drop_eq_getElem_cons h

theorem strncpy_from_two (t : List Char) (k : Nat) (h : k + 2 ≤ t.length) :
    strncpy_from t k 2 = [char_at t k, char_at t (k + 1)] := by
  unfold strncpy_from
  rw [drop_eq_char_at_cons t k (by omega), drop_eq_char_at_cons t (k + 1) (by omega)]
  rfl

theorem strncpy_from_four (t : List Char) (k : Nat) (h : k + 4 ≤ t.length) :
    strncpy_from t k 4
      = [char_at t k, char_at t (k + 1), char_at t (k + 2), char_at t (k + 3)] := by
  unfold strncpy_from
  rw [drop_eq_char_at_cons t k (by omega), drop_eq_char_at_cons t (k + 1) (by omega),
    drop_eq_char_at_cons t (k + 2) (by omega), drop_eq_char_at_cons t (k + 3) (by omega)]
  rfl

theorem atoi_two_digits (t : List Char) (k : Nat) (h : k + 2 ≤ t.length)
    (h0 : isdigit (char_at t k) = true) (h1 : isdigit (char_at t (k + 1)) = true) :
    atoi (strncpy_from t k 2) = field_value t k 2
      ∧ 0 ≤ field_value t k 2 ∧ field_value t k 2 ≤ 99 := by
  have hs : (t.drop k).take 2 = [char_at t k, char_at t (k + 1)] := strncpy_from_two t k h
  have hv0 := isdigit_val _ h0
  have hv1 := isdigit_val _ h1
  refine ⟨?_, ?_, ?_⟩
  · unfold field_value strncpy_from
    apply atoi_eq_dec_value
    rw [hs]
    intro c hc
    simp only [List.mem_cons, List.mem_singleton, List.not_mem_nil, or_false] at hc
    rcases hc with rfl | rfl
    · exact h0
    · exact h1
  · unfold field_value
    rw [hs]
    simp only [dec_value, List.foldl_cons, List.foldl_nil]
    omega
  · unfold field_value
    rw [hs]
    simp only [dec_value, List.foldl_cons, List.foldl_nil]
    omega

theorem atoi_four_digits (t : List Char) (k : Nat) (h : k + 4 ≤ t.length)
    (h0 : isdigit (char_at t k) = true) (h1 : isdigit (char_at t (k + 1)) = true)
    (h2 : isdigit (char_at t (k + 2)) = true) (h3 : isdigit (char_at t (k + 3)) = true) :
    atoi (strncpy_from t k 4) = field_value t k 4
      ∧ 0 ≤ field_value t k 4 ∧ field_value t k 4 ≤ 9999 := by
  have hs : (t.drop k).take 4
      = [char_at t k, char_at t (k + 1), char_at t (k + 2), char_at t (k + 3)] :=
    strncpy_from_four t k h
  have hv0 := isdigit_val _ h0
  have hv1 := isdigit_val _ h1
  have hv2 := isdigit_val _ h2
  have hv3 := isdigit_val _ h3
  refine ⟨?_, ?_, ?_⟩
  · unfold field_value strncpy_from
    apply atoi_eq_dec_value
    rw [hs]
    intro c hc
    simp only [List.mem_cons, List.mem_singleton, List.not_mem_nil, or_false] at hc
    rcases hc with rfl | rfl | rfl | rfl
    · exact h0
    · exact h1
    · exact h2
    · exact h3
  · unfold field_value
    rw [hs]
    simp only [dec_value, List.foldl_cons, List.foldl_nil]
    omega
  · unfold field_value
    rw [hs]
    simp only [dec_value, List.foldl_cons, List.foldl_nil]
    omega

/-! ## Lemmas on `format_match` -/

theorem digits_ok_date_time (d : List Char) :
    digits_ok d 0 14 = true ↔ all_digits_at d date_time_positions := by
  simp [digits_ok, loop_range, chk8601, all_digits_at, date_time_positions, List.range,
    List.range.loop]

theorem digits_ok_offset (d : List Char) :
    digits_ok d 15 18 = true ↔ all_digits_at d [21, 23, 24] := by
  simp [digits_ok, loop_range, chk8601, all_digits_at, List.range, List.range.loop]

/-- Outcome of the date check in the words of the specification: the year in
[0, 9999], then the month in [1, 12], then the day not above the day count. -/
def date_outcome (year month day : Int) : code_t :=
  if year < 0 ∨ 9999 < year then INVALID_YEAR
  else if month < 1 ∨ 12 < month then INVALID_MONTH
  else if spec_month_days year month < day then INVALID_DAY
  else VALIDATED

/-- Steps 5 to 8 of the matcher in the words of the specification: the date outcome
if it is not VALIDATED, else the time outcome if it is not VALIDATED, else
INVALID_TMZ if an offset is present and its outcome is not VALIDATED, else VALIDATED. -/
def values_outcome (rd rt : code_t) (offset : Bool) (rz : code_t) : code_t :=
  if rd ≠ VALIDATED then rd
  else if rt ≠ VALIDATED then rt
  else if offset = true ∧ rz ≠ VALIDATED then INVALID_TMZ
  else VALIDATED

theorem valid_date_eq_date_outcome (year month day : Int) :
    valid_date YYYYMMDD year month day = some (date_outcome year month day) :=
  valid_date_eq year month day

theorem format_match_values_eq (d : List Char) (chklen : Int) :
    format_match_values d chklen = some
      (values_outcome
        (date_outcome (atoi (strncpy_from d 0 4)) (atoi (strncpy_from d 5 2))
          (atoi (strncpy_from d 8 2)))
        (valid_time HHMMSS (atoi (strncpy_from d 11 2)) (atoi (strncpy_from d 14 2))
          (atoi (strncpy_from d 17 2)))
        (decide (chklen = 25))
        (valid_time HHMM (atoi (strncpy_from d 20 2)) (atoi (strncpy_from d 23 2)) 0), d) := by
  unfold format_match_values
  simp only [valid_date_eq_date_outcome]
  unfold values_outcome
  split_ifs <;> simp_all

theorem format_match_values_fields (d : List Char) (chklen : Int) (hlen : 20 ≤ d.length)
    (hd : all_digits_at d date_time_positions) :
    format_match_values d chklen = some
      (values_outcome
        (date_outcome (field_value d 0 4) (field_value d 5 2) (field_value d 8 2))
        (valid_time HHMMSS (field_value d 11 2) (field_value d 14 2) (field_value d 17 2))
        (decide (chklen = 25))
        (valid_time HHMM (atoi (strncpy_from d 20 2)) (atoi (strncpy_from d 23 2)) 0), d) := by
  rw [format_match_values_eq]
  rw [(atoi_four_digits d 0 (by omega) (hd 0 (by decide)) (hd 1 (by decide))
        (hd 2 (by decide)) (hd 3 (by decide))).1,
    (atoi_two_digits d 5 (by omega) (hd 5 (by decide)) (hd 6 (by decide))).1,
    (atoi_two_digits d 8 (by omega) (hd 8 (by decide)) (hd 9 (by decide))).1,
    (atoi_two_digits d 11 (by omega) (hd 11 (by decide)) (hd 12 (by decide))).1,
    (atoi_two_digits d 14 (by omega) (hd 14 (by decide)) (hd 15 (by decide))).1,
    (atoi_two_digits d 17 (by omega) (hd 17 (by decide)) (hd 18 (by decide))).1]

theorem char_at_take (t : List Char) (n p : Nat) (h : p < n) :
    char_at (t.take n) p = char_at t p := by
  unfold char_at
  simp only [List.getD_eq_getElem?_getD, List.getElem?_take, h, if_true]

theorem strncpy_from_take (t : List Char) (m k n : Nat) (h : k + n ≤ m) :
    strncpy_from (t.take m) k n = strncpy_from t k n := by
  unfold strncpy_from
  rw [List.drop_take, List.take_take]
  congr 1
  omega

theorem field_value_take (t : List Char) (m k n : Nat) (h : k + n ≤ m) :
    field_value (t.take m) k n = field_value t k n := by
  have := strncpy_from_take t m k n h
  unfold strncpy_from at this
  unfold field_value
  rw [this]

theorem all_digits_at_take (t : List Char) :
    all_digits_at (t.take 20) date_time_positions ↔ all_digits_at t date_time_positions := by
  unfold all_digits_at
  constructor
  · intro h p hp
    have hlt : p < 20 := by
      revert p
      decide
    rw [← char_at_take t 20 p hlt]
    exact h p hp
  · intro h p hp
    have hlt : p < 20 := by
      revert p
      decide
    rw [char_at_take t 20 p hlt]
    exact h p hp

/-- First return of `format_match`: the length or a separator is wrong. -/
theorem format_match_bad_shape (t : List Char)
    (h : ¬ (20 ≤ t.length ∧ t.length ≤ 25 ∧ separators_ok t)) :
    format_match t UTC8601 = some (INVALID_FORMAT, t) := by
  unfold format_match strlen
  have hc : ((t.length : Int) < 20 ∨ (t.length : Int) > 25 ∨ char_at t 4 ≠ '-'
      ∨ char_at t 7 ≠ '-' ∨ char_at t 10 ≠ 'T' ∨ char_at t 13 ≠ ':'
      ∨ char_at t 16 ≠ ':') := by
    unfold separators_ok at h
    by_contra hn
    simp only [not_or, not_lt, gt_iff_lt, ne_eq, Decidable.not_not] at hn
    exact h ⟨by omega, by omega, hn.2.2.1, hn.2.2.2.1, hn.2.2.2.2.1, hn.2.2.2.2.2.1,
      hn.2.2.2.2.2.2⟩
  dsimp only
  rw [if_pos rfl, if_pos hc]

/-- After the first check of `format_match`, with Z at position 19: the buffer is
cut after the Z and the remaining checks run with `chklen = 20`. -/
theorem format_match_zulu (t : List Char) (h20 : 20 ≤ t.length) (h25 : t.length ≤ 25)
    (hsep : separators_ok t) (hz : char_at t 19 = 'Z') :
    format_match t UTC8601 = format_match_checks (t.take 20) 20 := by
  unfold format_match strlen
  obtain ⟨s4, s7, s10, s13, s16⟩ := hsep
  have hc : ¬ ((t.length : Int) < 20 ∨ (t.length : Int) > 25 ∨ char_at t 4 ≠ '-'
      ∨ char_at t 7 ≠ '-' ∨ char_at t 10 ≠ 'T' ∨ char_at t 13 ≠ ':'
      ∨ char_at t 16 ≠ ':') := by
    simp only [s4, s7, s10, s13, s16, ne_eq, not_true_eq_false, or_false]
    omega
  dsimp only
  rw [if_pos rfl, if_neg hc, if_neg (fun h => h.2 hz), if_pos hz]

/-- After the first check of `format_match`, with no Z at position 19. -/
theorem format_match_no_zulu (t : List Char) (h20 : 20 ≤ t.length) (h25 : t.length ≤ 25)
    (hsep : separators_ok t) (hz : char_at t 19 ≠ 'Z') :
    format_match t UTC8601 =
      if t.length = 20 then some (INVALID_TMZ, t) else format_match_checks t t.length := by
  unfold format_match strlen
  obtain ⟨s4, s7, s10, s13, s16⟩ := hsep
  have hc : ¬ ((t.length : Int) < 20 ∨ (t.length : Int) > 25 ∨ char_at t 4 ≠ '-'
      ∨ char_at t 7 ≠ '-' ∨ char_at t 10 ≠ 'T' ∨ char_at t 13 ≠ ':'
      ∨ char_at t 16 ≠ ':') := by
    simp only [s4, s7, s10, s13, s16, ne_eq, not_true_eq_false, or_false]
    omega
  by_cases hl : t.length = 20
  · have hl2 : (t.length : Int) = 20 := by omega
    rw [if_pos hl]
    dsimp only
    rw [if_pos rfl, if_neg hc, if_pos ⟨hl2, hz⟩]
  · have hl2 : ¬ ((t.length : Int) = 20) := by omega
    rw [if_neg hl]
    dsimp only
    rw [if_pos rfl, if_neg hc, if_neg (fun h => hl2 h.1), if_neg hz]

/-- The checks of lines 197-232 with `chklen = 20`: only the 14 date and time digits count. -/
theorem format_match_checks_20 (d : List Char) :
    format_match_checks d 20 =
      if digits_ok d 0 14 = true then format_match_values d 20
      else some (INVALID_FORMAT, d) := by
  unfold format_match_checks
  have e1 : ¬ ((20 : Int) = 25) := by decide
  cases digits_ok d 0 14 <;> simp [e1]

/-- The checks of lines 197-232 with `chklen = 25`. -/
theorem format_match_checks_25 (d : List Char) :
    format_match_checks d 25 =
      if char_at d 22 ≠ ':' ∨ (char_at d 19 ≠ '-' ∧ char_at d 19 ≠ '+') then
        some (INVALID_TMZ, d)
      else if digits_ok d 0 14 = false then some (INVALID_FORMAT, d)
      else if digits_ok d 15 18 = false then some (INVALID_TMZ, d)
      else format_match_values d 25 := by
  unfold format_match_checks
  have e1 : ¬ ((25 : Int) = 20) := by decide
  simp only [true_and, ne_eq, e1, not_true_eq_false, and_false, if_false]

/-- The checks of lines 197-232 with a length from 21 to 24: INVALID_TMZ. -/
theorem format_match_checks_mid (d : List Char) (n : Int) (h20 : n ≠ 20) (h25 : n ≠ 25) :
    format_match_checks d n = some (INVALID_TMZ, d) := by
  unfold format_match_checks
  simp only [h20, h25, false_and, ne_eq, not_false_eq_true, and_self, if_true, if_false]

theorem format_match_checks_defined (d : List Char) (n : Int) :
    ∃ r, format_match_checks d n = some r := by
  unfold format_match_checks
  split_ifs
  · exact ⟨_, rfl⟩
  · exact ⟨_, rfl⟩
  · exact ⟨_, rfl⟩
  · exact ⟨_, rfl⟩
  · exact ⟨_, format_match_values_eq d n⟩

/-- The embedding of `format_match` never reaches an out-of-bounds read. -/
theorem format_match_defined (t : List Char) (format : Int) :
    ∃ r, format_match t format = some r := by
  unfold format_match
  dsimp only
  split_ifs
  · exact ⟨_, rfl⟩
  · exact ⟨_, rfl⟩
  · exact format_match_checks_defined _ _
  · exact format_match_checks_defined _ _
  · exact ⟨_, rfl⟩

/-! ## Lemmas on the outcomes -/

theorem valid_time_hhmmss_valid (h m sec : Int) (h0 : 0 ≤ h) (h1 : h ≤ 23) (m0 : 0 ≤ m)
    (m1 : m ≤ 59) (s0 : 0 ≤ sec) (s1 : sec ≤ 59) : valid_time HHMMSS h m sec = VALIDATED := by
  unfold valid_time
  have c1 : ¬ (sec > 59 ∨ sec < 0) := by omega
  have c2 : ¬ (m > 59 ∨ m < 0) := by omega
  have c3 : ¬ (h > 23 ∨ h < 0) := by omega
  simp only [c1, c2, c3, and_false, if_false, true_or, if_true]

theorem valid_time_hhmm_valid (h m sec : Int) (h0 : 0 ≤ h) (h1 : h ≤ 23) (m0 : 0 ≤ m)
    (m1 : m ≤ 59) : valid_time HHMM h m sec = VALIDATED := by
  unfold valid_time
  have c2 : ¬ (m > 59 ∨ m < 0) := by omega
  have c3 : ¬ (h > 23 ∨ h < 0) := by omega
  have hf : ¬ (HHMM = HHMMSS) := by decide
  simp only [c2, c3, hf, false_and, if_false, or_true, if_true]

theorem valid_time_ne_invalid_format (f h m sec : Int) : valid_time f h m sec ≠ INVALID_FORMAT := by
  unfold valid_time
  split_ifs <;> decide

theorem date_outcome_ne_invalid_format (y m d : Int) : date_outcome y m d ≠ INVALID_FORMAT := by
  unfold date_outcome
  split_ifs <;> decide

theorem date_outcome_valid (y m d : Int) (y0 : 0 ≤ y) (y1 : y ≤ 9999) (m0 : 1 ≤ m)
    (m1 : m ≤ 12) (d1 : d ≤ spec_month_days y m) : date_outcome y m d = VALIDATED := by
  unfold date_outcome
  have c1 : ¬ (y < 0 ∨ 9999 < y) := by omega
  have c2 : ¬ (m < 1 ∨ 12 < m) := by omega
  have c3 : ¬ (spec_month_days y m < d) := by omega
  simp only [c1, c2, c3, if_false]

theorem values_outcome_valid (rd rt rz : code_t) (offset : Bool) (hd : rd = VALIDATED)
    (ht : rt = VALIDATED) (hz : offset = true → rz = VALIDATED) :
    values_outcome rd rt offset rz = VALIDATED := by
  unfold values_outcome
  subst hd ht
  cases offset
  · simp
  · simp [hz rfl]

theorem values_outcome_ne_invalid_format (rd rt rz : code_t) (offset : Bool)
    (hd : rd ≠ INVALID_FORMAT) (ht : rt ≠ INVALID_FORMAT) :
    values_outcome rd rt offset rz ≠ INVALID_FORMAT := by
  unfold values_outcome
  split_ifs
  · exact hd
  · exact ht
  · decide
  · decide

/-! ## Claims on `valid_date` and `valid_time` -/

/-- C7: for all integers year, month and day, `valid_date(YYYYMMDD, ..)` returns
INVALID_YEAR when the year is outside [0, 9999], otherwise INVALID_MONTH when the
month is outside [1, 12], otherwise INVALID_DAY when the day exceeds the day count
of the month (February 29 in a leap year), otherwise VALIDATED; and whenever the
year and month checks pass, the index `month - 1` of the table lookup lies in
0..11 and the lookup yields the day count of the month. -/
theorem valid_date_contract (year month day : Int) :
    valid_date YYYYMMDD year month day = some (
      if year < 0 ∨ 9999 < year then INVALID_YEAR
      else if month < 1 ∨ 12 < month then INVALID_MONTH
      else if spec_month_days year month < day then INVALID_DAY
      else VALIDATED)
    ∧ ((year < 0 ∨ 9999 < year ∨ month < 1 ∨ 12 < month)
        ∨ (0 ≤ month - 1 ∧ month - 1 ≤ 11
            ∧ array_read (days_table year) (month - 1) = some (spec_month_days year month))) := by
  refine ⟨valid_date_eq year month day, ?_⟩
  by_cases h : year < 0 ∨ 9999 < year ∨ month < 1 ∨ 12 < month
  · exact Or.inl h
  · refine Or.inr ⟨by omega, by omega, days_lookup year month (by omega) (by omega) (by omega)⟩

/-- C8: for every year y from 0 to 9999, `valid_date(YYYYMMDD, y, 2, 29)` returns
VALIDATED if and only if y is a leap year by the rule of the specification, and
INVALID_DAY otherwise; 2000 and 2024 are accepted, 1900 and 2023 are rejected
with INVALID_DAY. -/
theorem valid_date_feb29_iff_leap (y : Int) (h0 : 0 ≤ y) (h1 : y ≤ 9999) :
    (valid_date YYYYMMDD y 2 29 = some VALIDATED ↔ spec_leap y = true)
    ∧ valid_date YYYYMMDD y 2 29 = some (if spec_leap y then VALIDATED else INVALID_DAY)
    ∧ valid_date YYYYMMDD 2000 2 29 = some VALIDATED
    ∧ valid_date YYYYMMDD 2024 2 29 = some VALIDATED
    ∧ valid_date YYYYMMDD 1900 2 29 = some INVALID_DAY
    ∧ valid_date YYYYMMDD 2023 2 29 = some INVALID_DAY := by
  have key : valid_date YYYYMMDD y 2 29
      = some (if spec_leap y then VALIDATED else INVALID_DAY) := by
    rw [valid_date_eq]
    have hy : ¬ (y < 0 ∨ 9999 < y) := by omega
    cases hl : spec_leap y <;> simp [hy, spec_month_days, hl]
  refine ⟨?_, key, by decide, by decide, by decide, by decide⟩
  rw [key]
  cases spec_leap y <;> simp

/-- Witness of C8 at the year 2024. -/
theorem valid_date_feb29_iff_leap_witness :
    (0 : Int) ≤ 2024 ∧ (2024 : Int) ≤ 9999
    ∧ (valid_date YYYYMMDD 2024 2 29 = some VALIDATED ↔ spec_leap 2024 = true) :=
  ⟨by decide, by decide, (valid_date_feb29_iff_leap 2024 (by decide) (by decide)).1⟩

/-- C9: `valid_time(HHMMSS, ..)` returns INVALID_SECOND when the second is outside
[0, 59], otherwise INVALID_MINUTE when the minute is outside [0, 59], otherwise
INVALID_HOUR when the hour is outside [0, 23], otherwise VALIDATED;
`valid_time(HHMM, ..)` applies only the minute check and then the hour check and
does not depend on the second; every (h, m, s) with h in [0, 23] and m, s in
[0, 59] is VALIDATED, 23:59:59 is accepted and 24:00:00 is INVALID_HOUR. -/
theorem valid_time_contract (hour minute second : Int) :
    valid_time HHMMSS hour minute second =
      (if second < 0 ∨ 59 < second then INVALID_SECOND
       else if minute < 0 ∨ 59 < minute then INVALID_MINUTE
       else if hour < 0 ∨ 23 < hour then INVALID_HOUR
       else VALIDATED)
    ∧ valid_time HHMM hour minute second =
      (if minute < 0 ∨ 59 < minute then INVALID_MINUTE
       else if hour < 0 ∨ 23 < hour then INVALID_HOUR
       else VALIDATED)
    ∧ (∀ other : Int, valid_time HHMM hour minute other = valid_time HHMM hour minute second)
    ∧ (∀ (h : Fin 24) (m s : Fin 60),
        valid_time HHMMSS ((h : Nat) : Int) ((m : Nat) : Int) ((s : Nat) : Int) = VALIDATED)
    ∧ valid_time HHMMSS 23 59 59 = VALIDATED
    ∧ valid_time HHMMSS 24 0 0 = INVALID_HOUR := by
  refine ⟨?_, ?_, ?_, ?_, by decide, by decide⟩
  · unfold valid_time
    have e1 : (second > 59 ∨ second < 0) ↔ (second < 0 ∨ 59 < second) := by omega
    have e2 : (minute > 59 ∨ minute < 0) ↔ (minute < 0 ∨ 59 < minute) := by omega
    have e3 : (hour > 23 ∨ hour < 0) ↔ (hour < 0 ∨ 23 < hour) := by omega
    simp only [e1, e2, e3, true_and, true_or, if_true]
  · unfold valid_time
    have e2 : (minute > 59 ∨ minute < 0) ↔ (minute < 0 ∨ 59 < minute) := by omega
    have e3 : (hour > 23 ∨ hour < 0) ↔ (hour < 0 ∨ 23 < hour) := by omega
    have hf : ¬ (HHMM = HHMMSS) := by decide
    simp only [e2, e3, hf, false_and, or_true, if_true, if_false]
  · intro other
    unfold valid_time
    have hf : ¬ (HHMM = HHMMSS) := by decide
    simp only [hf, false_and, if_false]
  · intro h m s
    unfold valid_time
    have hh := h.isLt
    have hm := m.isLt
    have hs := s.isLt
    have c1 : ¬ (((s : Nat) : Int) > 59 ∨ ((s : Nat) : Int) < 0) := by omega
    have c2 : ¬ (((m : Nat) : Int) > 59 ∨ ((m : Nat) : Int) < 0) := by omega
    have c3 : ¬ (((h : Nat) : Int) > 23 ∨ ((h : Nat) : Int) < 0) := by omega
    simp only [c1, c2, c3, and_false, if_false, true_or, if_true]


/-! ## Claims on `format_match` -/

/-- C1: every text of the Z form (20 characters) or of the offset form (25
characters) whose month is 1..12, whose day is 1..(day count of the month in the
year), whose hour is at most 23, whose minute and second are at most 59 and whose
offset hour and minute, when present, are at most 23 and 59, is VALIDATED by
`format_match(text, UTC8601)`; the buffer is left unchanged and the length of the
text in it is 20 for the Z form and 25 for the offset form. -/
theorem format_match_accepts (t : List Char)
    (hform : z_form t ∨ offset_form t)
    (hmon : 1 ≤ field_value t 5 2 ∧ field_value t 5 2 ≤ 12)
    (hday : 1 ≤ field_value t 8 2
      ∧ field_value t 8 2 ≤ spec_month_days (field_value t 0 4) (field_value t 5 2))
    (hhr : field_value t 11 2 ≤ 23) (hmin : field_value t 14 2 ≤ 59)
    (hsec : field_value t 17 2 ≤ 59)
    (hoff : offset_form t → field_value t 20 2 ≤ 23 ∧ field_value t 23 2 ≤ 59) :
    ∃ b, format_match t UTC8601 = some (VALIDATED, b) ∧ b = t
      ∧ ((z_form t ∧ strlen b = 20) ∨ (offset_form t ∧ strlen b = 25)) := by
  have hlen : 20 ≤ t.length := by
    rcases hform with h | h
    · exact le_of_eq h.1.symm
    · have := h.1
      omega
  have hdig : all_digits_at t date_time_positions := by
    rcases hform with h | h
    · exact h.2.2.1
    · exact h.2.2.1
  have hy := atoi_four_digits t 0 (by omega) (hdig 0 (by decide)) (hdig 1 (by decide))
    (hdig 2 (by decide)) (hdig 3 (by decide))
  have hh := atoi_two_digits t 11 (by omega) (hdig 11 (by decide)) (hdig 12 (by decide))
  have hm := atoi_two_digits t 14 (by omega) (hdig 14 (by decide)) (hdig 15 (by decide))
  have hs := atoi_two_digits t 17 (by omega) (hdig 17 (by decide)) (hdig 18 (by decide))
  have hdate : date_outcome (field_value t 0 4) (field_value t 5 2) (field_value t 8 2)
      = VALIDATED :=
    date_outcome_valid _ _ _ hy.2.1 hy.2.2 hmon.1 hmon.2 hday.2
  have htime : valid_time HHMMSS (field_value t 11 2) (field_value t 14 2)
      (field_value t 17 2) = VALIDATED :=
    valid_time_hhmmss_valid _ _ _ hh.2.1 hhr hm.2.1 hmin hs.2.1 hsec
  refine ⟨t, ?_, rfl, ?_⟩
  · rcases hform with h | h
    · obtain ⟨hl, hsep, _, hz⟩ := h
      rw [format_match_zulu t (by omega) (by omega) hsep hz,
        List.take_of_length_le (le_of_eq hl), format_match_checks_20,
        if_pos ((digits_ok_date_time t).2 hdig), format_match_values_fields t 20 hlen hdig,
        values_outcome_valid _ _ _ _ hdate htime (fun hc => absurd hc (by decide))]
    · have hoff2 := hoff h
      obtain ⟨hl, hsep, _, hsign, hod, hcolon⟩ := h
      have hnz : char_at t 19 ≠ 'Z' := by
        rcases hsign with e | e <;> rw [e] <;> decide
      have htz := atoi_two_digits t 20 (by omega) (hod 20 (by decide)) (hod 21 (by decide))
      have htm := atoi_two_digits t 23 (by omega) (hod 23 (by decide)) (hod 24 (by decide))
      have hod3 : all_digits_at t [21, 23, 24] := by
        intro p hp
        apply hod p
        revert p
        decide
      have hsign2 : ¬ (char_at t 22 ≠ ':' ∨ (char_at t 19 ≠ '-' ∧ char_at t 19 ≠ '+')) := by
        rintro (h1 | ⟨h1, h2⟩)
        · exact h1 hcolon
        · rcases hsign with e | e
          · exact h2 e
          · exact h1 e
      have hd14 : ¬ (digits_ok t 0 14 = false) := by
        rw [(digits_ok_date_time t).2 hdig]
        decide
      have hd3 : ¬ (digits_ok t 15 18 = false) := by
        rw [(digits_ok_offset t).2 hod3]
        decide
      have hl25 : ¬ (t.length = 20) := by omega
      have hcast : ((t.length : Nat) : Int) = 25 := by omega
      rw [format_match_no_zulu t (by omega) (by omega) hsep hnz, if_neg hl25, hcast,
        format_match_checks_25, if_neg hsign2, if_neg hd14, if_neg hd3,
        format_match_values_fields t 25 hlen hdig,
        values_outcome_valid _ _ _ _ hdate htime (fun _ => by
          rw [htz.1, htm.1]
          exact valid_time_hhmm_valid _ _ _ htz.2.1 hoff2.1 htm.2.1 hoff2.2)]
  · rcases hform with h | h
    · exact Or.inl ⟨h, by unfold strlen; rw [h.1]; rfl⟩
    · exact Or.inr ⟨h, by unfold strlen; rw [h.1]; rfl⟩


/-- Witness of C1 at the offset-form text `2024-01-15T10:30:00+05:30`. -/
theorem format_match_accepts_witness :
    offset_form "2024-01-15T10:30:00+05:30".toList
    ∧ format_match "2024-01-15T10:30:00+05:30".toList UTC8601
        = some (VALIDATED, "2024-01-15T10:30:00+05:30".toList)
    ∧ strlen "2024-01-15T10:30:00+05:30".toList = 25 :=
  have hoff : offset_form "2024-01-15T10:30:00+05:30".toList := by
    unfold offset_form separators_ok all_digits_at
    decide
  ⟨hoff, by
    obtain ⟨b, h1, h2, _⟩ := format_match_accepts "2024-01-15T10:30:00+05:30".toList
      (Or.inr hoff) (by decide) (by decide) (by decide) (by decide) (by decide)
      (fun _ => by decide)
    rw [h2] at h1
    exact h1, by decide⟩

/-- C2: evaluation at the text `2024-01-15T10:30:00+x5:30`, which has a non-digit at
offset position 20. The second digit loop runs over `chk8601[15..17]`, that is the
positions 21, 23 and 24, so position 20 is not examined; `atoi` reads the field
`x5` as 0 and `format_match` returns VALIDATED, not INVALID_TMZ. A non-digit at
position 21 (`+5x:30`) is reported as INVALID_TMZ. -/
theorem format_match_offset_position_20 :
    "2024-01-15T10:30:00+x5:30".toList.length = 25
    ∧ char_at "2024-01-15T10:30:00+x5:30".toList 19 = '+'
    ∧ char_at "2024-01-15T10:30:00+x5:30".toList 22 = ':'
    ∧ all_digits_at "2024-01-15T10:30:00+x5:30".toList date_time_positions
    ∧ isdigit (char_at "2024-01-15T10:30:00+x5:30".toList 20) = false
    ∧ loop_range 15 18 = [15, 16, 17]
    ∧ atoi (strncpy_from "2024-01-15T10:30:00+x5:30".toList 20 2) = 0
    ∧ format_match "2024-01-15T10:30:00+x5:30".toList UTC8601
        = some (VALIDATED, "2024-01-15T10:30:00+x5:30".toList)
    ∧ format_match "2024-01-15T10:30:00+5x:30".toList UTC8601
        = some (INVALID_TMZ, "2024-01-15T10:30:00+5x:30".toList) := by
  unfold all_digits_at
  decide

/-- C3: for every text that passes the length, separator, timezone-designator and
digit checks of `format_match`, with y, mo, d, h, mi, s the integers of its date
and time fields and oh, om the integers `atoi` reads from its offset fields, the
result is that of `valid_date(YYYYMMDD, y, mo, d)` if it is not VALIDATED, else
that of `valid_time(HHMMSS, h, mi, s)` if it is not VALIDATED, else INVALID_TMZ
if an offset is present and `valid_time(HHMM, oh, om, 0)` is not VALIDATED, else
VALIDATED; the buffer holds the text, cut after a Z at position 19. A text whose
month field is 02 and whose day field is 30 yields INVALID_DAY. -/
theorem format_match_numeric (t : List Char) (hp : passes_checks t) :
    ∃ rd, valid_date YYYYMMDD (field_value t 0 4) (field_value t 5 2) (field_value t 8 2)
        = some rd
      ∧ format_match t UTC8601 = some
          (values_outcome rd
            (valid_time HHMMSS (field_value t 11 2) (field_value t 14 2) (field_value t 17 2))
            (has_offset t)
            (valid_time HHMM (atoi (strncpy_from t 20 2)) (atoi (strncpy_from t 23 2)) 0),
           if char_at t 19 = 'Z' then t.take 20 else t)
      ∧ (field_value t 5 2 ≠ 2 ∨ field_value t 8 2 ≠ 30
          ∨ (format_match t UTC8601).map Prod.fst = some INVALID_DAY) := by
  obtain ⟨h20, h25, hsep, htzd, hdig, hoffd⟩ := hp
  have key : format_match t UTC8601 = some
      (values_outcome (date_outcome (field_value t 0 4) (field_value t 5 2) (field_value t 8 2))
        (valid_time HHMMSS (field_value t 11 2) (field_value t 14 2) (field_value t 17 2))
        (has_offset t)
        (valid_time HHMM (atoi (strncpy_from t 20 2)) (atoi (strncpy_from t 23 2)) 0),
       if char_at t 19 = 'Z' then t.take 20 else t) := by
    by_cases hz : char_at t 19 = 'Z'
    · have hlen : 20 ≤ (t.take 20).length := by
        rw [List.length_take]
        omega
      have hno : has_offset t = false := by
        unfold has_offset
        apply decide_eq_false
        intro h
        exact h.2 hz
      rw [format_match_zulu t h20 h25 hsep hz, format_match_checks_20,
        if_pos ((digits_ok_date_time _).2 ((all_digits_at_take t).2 hdig)),
        format_match_values_fields _ 20 hlen ((all_digits_at_take t).2 hdig),
        field_value_take t 20 0 4 (by omega), field_value_take t 20 5 2 (by omega),
        field_value_take t 20 8 2 (by omega), field_value_take t 20 11 2 (by omega),
        field_value_take t 20 14 2 (by omega), field_value_take t 20 17 2 (by omega),
        if_pos hz, hno]
      have e : decide ((20 : Int) = 25) = false := by decide
      rw [e]
      rfl
    · have hl : t.length = 25 := by
        rcases htzd with h | h
        · exact absurd h hz
        · exact h.1
      have hsign : char_at t 19 = '+' ∨ char_at t 19 = '-' := by
        rcases htzd with h | h
        · exact absurd h hz
        · exact h.2.1
      have hcolon : char_at t 22 = ':' := by
        rcases htzd with h | h
        · exact absurd h hz
        · exact h.2.2
      have hod3 : all_digits_at t [21, 23, 24] := by
        rcases hoffd with h | h
        · exact absurd h hz
        · exact h
      have hsign2 : ¬ (char_at t 22 ≠ ':' ∨ (char_at t 19 ≠ '-' ∧ char_at t 19 ≠ '+')) := by
        rintro (h1 | ⟨h1, h2⟩)
        · exact h1 hcolon
        · rcases hsign with e | e
          · exact h2 e
          · exact h1 e
      have hd14 : ¬ (digits_ok t 0 14 = false) := by
        rw [(digits_ok_date_time t).2 hdig]
        decide
      have hd3 : ¬ (digits_ok t 15 18 = false) := by
        rw [(digits_ok_offset t).2 hod3]
        decide
      have hl25 : ¬ (t.length = 20) := by omega
      have hcast : ((t.length : Nat) : Int) = 25 := by omega
      have hyes : has_offset t = true := by
        unfold has_offset
        exact decide_eq_true ⟨hl, hz⟩
      rw [format_match_no_zulu t h20 h25 hsep hz, if_neg hl25, hcast,
        format_match_checks_25, if_neg hsign2, if_neg hd14, if_neg hd3,
        format_match_values_fields t 25 h20 hdig, if_neg hz, hyes]
      have e : decide ((25 : Int) = 25) = true := by decide
      rw [e]
  refine ⟨_, valid_date_eq_date_outcome _ _ _, key, ?_⟩
  by_cases hm : field_value t 5 2 = 2
  · by_cases hd : field_value t 8 2 = 30
    · right
      right
      have hy := atoi_four_digits t 0 (by omega) (hdig 0 (by decide)) (hdig 1 (by decide))
        (hdig 2 (by decide)) (hdig 3 (by decide))
      have hdate : date_outcome (field_value t 0 4) (field_value t 5 2) (field_value t 8 2)
          = INVALID_DAY := by
        unfold date_outcome spec_month_days
        rw [hm, hd]
        have c1 : ¬ (field_value t 0 4 < 0 ∨ 9999 < field_value t 0 4) := by omega
        simp only [c1, if_false, if_true]
        cases spec_leap (field_value t 0 4) <;> decide
      rw [key, hdate]
      rfl
    · exact Or.inr (Or.inl hd)
  · exact Or.inl hm

/-- Witness of C3 at the text `2024-02-30T10:30:00Z`: the outcome is INVALID_DAY. -/
theorem format_match_numeric_witness :
    passes_checks "2024-02-30T10:30:00Z".toList
    ∧ format_match "2024-02-30T10:30:00Z".toList UTC8601
        = some (INVALID_DAY, "2024-02-30T10:30:00Z".toList) :=
  have hp : passes_checks "2024-02-30T10:30:00Z".toList := by
    unfold passes_checks separators_ok tzd_ok all_digits_at
    decide
  ⟨hp, by
    obtain ⟨rd, h1, h2, _⟩ := format_match_numeric "2024-02-30T10:30:00Z".toList hp
    have e : rd = INVALID_DAY := Option.some.inj (h1.symm.trans (by decide))
    rw [h2, e]
    decide⟩


/-- C4: for every text, `format_match(text, UTC8601)` returns INVALID_FORMAT exactly
when (a) its length is outside [20, 25] or one of the positions 4, 7, 10, 13, 16
does not hold its separator, or (b) it passes (a) and the timezone-designator
classification and at least one of the 14 date and time positions is not a
decimal digit. -/
theorem format_match_invalid_format_iff (t : List Char) :
    (format_match t UTC8601).map Prod.fst = some INVALID_FORMAT
      ↔ ((¬ (20 ≤ t.length ∧ t.length ≤ 25) ∨ ¬ separators_ok t)
          ∨ ((20 ≤ t.length ∧ t.length ≤ 25 ∧ separators_ok t) ∧ tzd_ok t
              ∧ ¬ all_digits_at t date_time_positions)) := by
  by_cases hshape : 20 ≤ t.length ∧ t.length ≤ 25 ∧ separators_ok t
  · obtain ⟨h20, h25, hsep⟩ := hshape
    have ha : ¬ (¬ (20 ≤ t.length ∧ t.length ≤ 25) ∨ ¬ separators_ok t) := by
      rintro (h | h)
      · exact h ⟨h20, h25⟩
      · exact h hsep
    by_cases hz : char_at t 19 = 'Z'
    · have htzd : tzd_ok t := Or.inl hz
      rw [format_match_zulu t h20 h25 hsep hz, format_match_checks_20]
      by_cases hdig : all_digits_at t date_time_positions
      · rw [if_pos ((digits_ok_date_time _).2 ((all_digits_at_take t).2 hdig)),
          format_match_values_eq]
        constructor
        · intro h
          exact absurd (Option.some.inj h) (values_outcome_ne_invalid_format _ _ _ _
            (date_outcome_ne_invalid_format _ _ _) (valid_time_ne_invalid_format _ _ _ _))
        · rintro (h | h)
          · exact absurd h ha
          · exact absurd hdig h.2.2
      · have hno : ¬ (digits_ok (t.take 20) 0 14 = true) := fun h =>
          hdig ((all_digits_at_take t).1 ((digits_ok_date_time _).1 h))
        rw [if_neg hno]
        constructor
        · intro _
          exact Or.inr ⟨⟨h20, h25, hsep⟩, htzd, hdig⟩
        · intro _
          rfl
    · rw [format_match_no_zulu t h20 h25 hsep hz]
      by_cases hl20 : t.length = 20
      · rw [if_pos hl20]
        constructor
        · intro h
          exact absurd (Option.some.inj h) (by simp)
        · rintro (h | h)
          · exact absurd h ha
          · rcases h.2.1 with e | e
            · exact absurd e hz
            · omega
      · rw [if_neg hl20]
        by_cases hl25 : t.length = 25
        · have hcast : ((t.length : Nat) : Int) = 25 := by omega
          rw [hcast, format_match_checks_25]
          by_cases hsign : char_at t 22 ≠ ':' ∨ (char_at t 19 ≠ '-' ∧ char_at t 19 ≠ '+')
          · rw [if_pos hsign]
            constructor
            · intro h
              exact absurd (Option.some.inj h) (by simp)
            · rintro (h | h)
              · exact absurd h ha
              · rcases h.2.1 with e | e
                · exact absurd e hz
                · rcases hsign with h1 | ⟨h1, h2⟩
                  · exact absurd e.2.2 h1
                  · rcases e.2.1 with e1 | e1
                    · exact absurd e1 h2
                    · exact absurd e1 h1
          · rw [if_neg hsign]
            have htzd : tzd_ok t := by
              right
              refine ⟨hl25, ?_, ?_⟩
              · by_contra hn
                exact hsign (Or.inr ⟨fun e => hn (Or.inr e), fun e => hn (Or.inl e)⟩)
              · by_contra hn
                exact hsign (Or.inl hn)
            by_cases hdig : all_digits_at t date_time_positions
            · have hd14 : ¬ (digits_ok t 0 14 = false) := by
                rw [(digits_ok_date_time t).2 hdig]
                decide
              rw [if_neg hd14]
              have hrhs : ¬ ((¬ (20 ≤ t.length ∧ t.length ≤ 25) ∨ ¬ separators_ok t)
                  ∨ ((20 ≤ t.length ∧ t.length ≤ 25 ∧ separators_ok t) ∧ tzd_ok t
                      ∧ ¬ all_digits_at t date_time_positions)) := by
                rintro (h | h)
                · exact ha h
                · exact h.2.2 hdig
              by_cases hd3 : digits_ok t 15 18 = false
              · rw [if_pos hd3]
                constructor
                · intro h
                  exact absurd (Option.some.inj h) (by simp)
                · intro h
                  exact absurd h hrhs
              · rw [if_neg hd3, format_match_values_eq]
                constructor
                · intro h
                  exact absurd (Option.some.inj h) (values_outcome_ne_invalid_format _ _ _ _
                    (date_outcome_ne_invalid_format _ _ _)
                    (valid_time_ne_invalid_format _ _ _ _))
                · intro h
                  exact absurd h hrhs
            · have hd14 : digits_ok t 0 14 = false := by
                cases hb : digits_ok t 0 14
                · rfl
                · exact absurd ((digits_ok_date_time t).1 hb) hdig
              rw [if_pos hd14]
              constructor
              · intro _
                exact Or.inr ⟨⟨h20, h25, hsep⟩, htzd, hdig⟩
              · intro _
                rfl
        · have hn20 : ((t.length : Nat) : Int) ≠ 20 := by omega
          have hn25 : ((t.length : Nat) : Int) ≠ 25 := by omega
          rw [format_match_checks_mid t _ hn20 hn25]
          constructor
          · intro h
            exact absurd (Option.some.inj h) (by simp)
          · rintro (h | h)
            · exact absurd h ha
            · rcases h.2.1 with e | e
              · exact absurd e hz
              · exact absurd e.1 hl25
  · rw [format_match_bad_shape t hshape]
    constructor
    · intro _
      left
      by_contra hn
      simp only [not_or, not_not] at hn
      exact hshape ⟨hn.1.1, hn.1.2, hn.2⟩
    · intro _
      rfl

/-- C5, the claim as stated fails: the 21-character text `2024-01-15T10:30:00Zx`
has correct separators and `format_match` returns VALIDATED, cutting the buffer
after the Z; likewise the 25-character text `2024-01-15T10:30:00Z99:99`, whose
position 19 is neither `+` nor `-`. -/
theorem zulu_trim_counterexample :
    separators_ok "2024-01-15T10:30:00Zx".toList
    ∧ "2024-01-15T10:30:00Zx".toList.length = 21
    ∧ format_match "2024-01-15T10:30:00Zx".toList UTC8601
        = some (VALIDATED, "2024-01-15T10:30:00Z".toList)
    ∧ separators_ok "2024-01-15T10:30:00Z99:99".toList
    ∧ "2024-01-15T10:30:00Z99:99".toList.length = 25
    ∧ ¬ (char_at "2024-01-15T10:30:00Z99:99".toList 19 = '+'
          ∨ char_at "2024-01-15T10:30:00Z99:99".toList 19 = '-')
    ∧ format_match "2024-01-15T10:30:00Z99:99".toList UTC8601
        = some (VALIDATED, "2024-01-15T10:30:00Z".toList) := by
  unfold separators_ok
  decide

/-- C5 as amended: for every text whose separators at positions 4, 7, 10, 13, 16 are
correct and whose position 19 is not Z, if its length is 21, 22, 23 or 24, or its
length is 25 and position 19 is not `+` or `-` or position 22 is not a colon,
then `format_match` returns INVALID_TMZ (and leaves the buffer unchanged). -/
theorem format_match_tmz_length (t : List Char) (hsep : separators_ok t)
    (hz : char_at t 19 ≠ 'Z')
    (h : (t.length = 21 ∨ t.length = 22 ∨ t.length = 23 ∨ t.length = 24)
      ∨ (t.length = 25
          ∧ (¬ (char_at t 19 = '+' ∨ char_at t 19 = '-') ∨ char_at t 22 ≠ ':'))) :
    format_match t UTC8601 = some (INVALID_TMZ, t) := by
  have h20 : 20 ≤ t.length := by omega
  have h25 : t.length ≤ 25 := by omega
  have hl20 : ¬ (t.length = 20) := by omega
  rw [format_match_no_zulu t h20 h25 hsep hz, if_neg hl20]
  rcases h with h | ⟨hl, hbad⟩
  · exact format_match_checks_mid t _ (by omega) (by omega)
  · have hcast : ((t.length : Nat) : Int) = 25 := by omega
    have hsign : char_at t 22 ≠ ':' ∨ (char_at t 19 ≠ '-' ∧ char_at t 19 ≠ '+') := by
      rcases hbad with hb | hb
      · exact Or.inr ⟨fun e => hb (Or.inr e), fun e => hb (Or.inl e)⟩
      · exact Or.inl hb
    rw [hcast, format_match_checks_25, if_pos hsign]

/-- Witness of the amended C5 at the 25-character text `2024-01-15T10:30:00 05:30`. -/
theorem format_match_tmz_length_witness :
    separators_ok "2024-01-15T10:30:00 05:30".toList
    ∧ "2024-01-15T10:30:00 05:30".toList.length = 25
    ∧ format_match "2024-01-15T10:30:00 05:30".toList UTC8601
        = some (INVALID_TMZ, "2024-01-15T10:30:00 05:30".toList) :=
  have hsep : separators_ok "2024-01-15T10:30:00 05:30".toList := by
    unfold separators_ok
    decide
  ⟨hsep, by decide, format_match_tmz_length "2024-01-15T10:30:00 05:30".toList hsep
    (by decide) (Or.inr ⟨by decide, Or.inl (by decide)⟩)⟩

/-- C6: every 20-character text with correct separators at positions 4, 7, 10, 13, 16
whose position 19 is not Z gets INVALID_TMZ from `format_match`, whatever its
other characters are, and the buffer is left unchanged. -/
theorem format_match_tmz_no_zulu (t : List Char) (hlen : t.length = 20)
    (hsep : separators_ok t) (hz : char_at t 19 ≠ 'Z') :
    format_match t UTC8601 = some (INVALID_TMZ, t) := by
  rw [format_match_no_zulu t (by omega) (by omega) hsep hz, if_pos hlen]

/-- Witness of C6 at the text `20x4-99-15T10:30:00X`, which has a non-digit in the
year and the month 99. -/
theorem format_match_tmz_no_zulu_witness :
    "20x4-99-15T10:30:00X".toList.length = 20
    ∧ format_match "20x4-99-15T10:30:00X".toList UTC8601
        = some (INVALID_TMZ, "20x4-99-15T10:30:00X".toList) :=
  ⟨by decide, format_match_tmz_no_zulu "20x4-99-15T10:30:00X".toList (by decide)
    (by unfold separators_ok; decide) (by decide)⟩

/-- C10: evaluation at the text `2024-01-00T10:30:00Z`, whose day field is 00.
`valid_date` compares the day only with the day count of the month and has no
lower bound, so `valid_date(YYYYMMDD, 2024, 1, 0)` and `format_match` both return
VALIDATED. -/
theorem format_match_day_zero :
    field_value "2024-01-00T10:30:00Z".toList 8 2 = 0
    ∧ valid_date YYYYMMDD 2024 1 0 = some VALIDATED
    ∧ format_match "2024-01-00T10:30:00Z".toList UTC8601
        = some (VALIDATED, "2024-01-00T10:30:00Z".toList) := by
  decide

/-! ## The dedup store: `make_entry` and `insert_or_match`

The doubly linked list of `dtv_t` nodes reached from the head pointer is the `List`
of its records in `next` order; the `prev` links mirror it and are not represented.
The counter is an `Int`; its overflow past `INT_MAX` occurrences is not modelled.
`calloc` succeeds or fails as the argument `alloc` says. -/

/-- Record `struct DTV_ENTRY` of `UTClib.h`, without its two links. -/
structure dtv_t where
  /-- The C string held in `char dtstr[26]`. -/
  dtstr : List Char
  /-- The occurrence counter `int count`. -/
  count : Int
  deriving DecidableEq, Repr

/-- The C library `strcmp`, reduced to the sign of its result (the source only tests
the sign): 0 for equal strings, else the order of the first differing characters,
a proper prefix being smaller. -/
def strcmp : List Char → List Char → Int
  | [], [] => 0
  | [], _ :: _ => -1
  | _ :: _, [] => 1
  | a :: as, b :: bs => if a = b then strcmp as bs else if a < b then -1 else 1

/-- The function `dtv_t *make_entry(char *chk_str)`: `none` is the NULL pointer of a
failed `calloc`; otherwise a zeroed node that holds the first 25 characters of
`chk_str` and the count 1. -/
def make_entry (alloc : Bool) (chk_str : List Char) : Option dtv_t :=
  if alloc then some ⟨chk_str.take 25, 1⟩ else none

/-- Lines 345-363 of `insert_or_match`: a new entry goes before the node `e`, whose
successors are `rest` (the head pointer or the `next` link of the predecessor
then points to the new entry). -/
def insert_before (alloc : Bool) (chk_str : List Char) (e : dtv_t) (rest : List dtv_t) :
    code_t × List dtv_t :=
  match make_entry alloc chk_str with
  | none => (INVALID_MEMORY, e :: rest)
  | some new_entry => (VALIDATED, new_entry :: e :: rest)

/-- Lines 371-378 of `insert_or_match`: a new entry goes behind the last node `e`. -/
def append_after (alloc : Bool) (chk_str : List Char) (e : dtv_t) : code_t × List dtv_t :=
  match make_entry alloc chk_str with
  | none => (INVALID_MEMORY, [e])
  | some new_entry => (VALIDATED, [e, new_entry])

/-- The `while` loop of `insert_or_match` with `list_walker` at the node `e`, whose
successors are `rest`: the outcome and the list from `e` on. -/
def insert_walk (alloc : Bool) (chk_str : List Char) (e : dtv_t) (rest : List dtv_t) :
    code_t × List dtv_t :=
  if strcmp chk_str e.dtstr = 0 then (VALIDATED, { e with count := e.count + 1 } :: rest)
  else if strcmp chk_str e.dtstr < 0 then insert_before alloc chk_str e rest
  else
    match rest with
    | [] => append_after alloc chk_str e
    | e2 :: rest2 =>
      ((insert_walk alloc chk_str e2 rest2).1, e :: (insert_walk alloc chk_str e2 rest2).2)

/-- The function `int insert_or_match(dtv_t **chk_list, char *chk_str)`: the outcome
and the list left behind `*chk_list`. -/
def insert_or_match (alloc : Bool) (chk_list : List dtv_t) (chk_str : List Char) :
    code_t × List dtv_t :=
  match chk_list with
  | [] =>
    match make_entry alloc chk_str with
    | none => (INVALID_MEMORY, [])
    | some new_entry => (VALIDATED, [new_entry])
  | e :: rest => insert_walk alloc chk_str e rest

/-- Insertion of a sequence of strings one after another, allocation succeeding. -/
def insert_all (chk_list : List dtv_t) (seq : List (List Char)) : List dtv_t :=
  seq.foldl (fun l s => (insert_or_match true l s).2) chk_list

/-! ## The collection in the words of the specification -/

/-- Records in strictly ascending order of their strings under `strcmp`. -/
def ascending (l : List dtv_t) : Prop :=
  l.Pairwise (fun x y => strcmp x.dtstr y.dtstr < 0)

/-- Count recorded for the string `t`: the sum of the counters of the records that
hold `t` (0 when there is none). -/
def count_of (l : List dtv_t) (t : List Char) : Int :=
  ((l.filter (fun e => e.dtstr = t)).map (fun e => e.count)).sum

/-- The collection after an insert-or-increment of `s`, as the specification words
it: the matching record gets its counter incremented, otherwise a record with
counter 1 goes before the first record whose string follows `s`, or at the end. -/
def spec_insert (s : List Char) : List dtv_t → List dtv_t
  | [] => [⟨s, 1⟩]
  | e :: rest =>
    if s = e.dtstr then { e with count := e.count + 1 } :: rest
    else if strcmp s e.dtstr < 0 then ⟨s, 1⟩ :: e :: rest
    else e :: spec_insert s rest

/-! ## Lemmas on `strcmp` -/

theorem strcmp_self (a : List Char) : strcmp a a = 0 := by
  induction a with
  | nil => rfl
  | cons c cs ih => simp [strcmp, ih]

theorem strcmp_eq_zero_iff (a b : List Char) : strcmp a b = 0 ↔ a = b := by
  induction a generalizing b with
  | nil =>
    cases b with
    | nil => simp [strcmp]
    | cons d ds => simp [strcmp]
  | cons c cs ih =>
    cases b with
    | nil => simp [strcmp]
    | cons d ds =>
      by_cases hcd : c = d
      · subst hcd
        simp [strcmp, ih]
      · by_cases hlt : c < d <;> simp [strcmp, hcd, hlt]

theorem strcmp_neg_iff_pos (a b : List Char) : strcmp a b < 0 ↔ 0 < strcmp b a := by
  induction a generalizing b with
  | nil =>
    cases b with
    | nil => simp [strcmp]
    | cons d ds => simp [strcmp]
  | cons c cs ih =>
    cases b with
    | nil => simp [strcmp]
    | cons d ds =>
      by_cases hcd : c = d
      · subst hcd
        simp [strcmp, ih]
      · have hdc : ¬ d = c := fun h => hcd h.symm
        rcases lt_or_gt_of_ne hcd with hlt | hgt
        · have hn : ¬ d < c := lt_asymm hlt
          simp [strcmp, hcd, hdc, hlt, hn]
        · have hn : ¬ c < d := lt_asymm hgt
          simp [strcmp, hcd, hdc, hgt, hn]

theorem strcmp_trans (a b c : List Char) (hab : strcmp a b < 0) (hbc : strcmp b c < 0) :
    strcmp a c < 0 := by
  induction a generalizing b c with
  | nil =>
    cases c with
    | nil =>
      cases b with
      | nil => simp [strcmp] at hab
      | cons y ys => simp [strcmp] at hbc
    | cons z zs => simp [strcmp]
  | cons x xs ih =>
    cases b with
    | nil => simp [strcmp] at hab
    | cons y ys =>
      cases c with
      | nil => simp [strcmp] at hbc
      | cons z zs =>
        by_cases hxy : x = y
        · subst hxy
          by_cases hxz : x = z
          · subst hxz
            simp only [strcmp, if_true] at hab hbc ⊢
            exact ih ys zs hab hbc
          · by_cases hlt : x < z
            · simp [strcmp, hxz, hlt]
            · simp [strcmp, hxz, hlt] at hbc
        · have hlt : x < y := by
            by_contra hn
            simp [strcmp, hxy, hn] at hab
          by_cases hyz : y = z
          · subst hyz
            simp [strcmp, hxy, hlt]
          · have hlt2 : y < z := by
              by_contra hn
              simp [strcmp, hyz, hn] at hbc
            have hxz : x < z := lt_trans hlt hlt2
            have hne : ¬ x = z := ne_of_lt hxz
            simp [strcmp, hne, hxz]

theorem strcmp_ne_of_neg (a b : List Char) (h : strcmp a b < 0) : a ≠ b := by
  intro e
  subst e
  rw [strcmp_self] at h
  exact absurd h (by decide)

/-! ## Lemmas on `insert_or_match` -/

theorem insert_walk_eq_spec (s : List Char) (hs : s.length ≤ 25) (rest : List dtv_t) :
    ∀ e : dtv_t, insert_walk true s e rest = (VALIDATED, spec_insert s (e :: rest)) := by
  have htake : s.take 25 = s := List.take_of_length_le hs
  induction rest with
  | nil =>
    intro e
    unfold insert_walk
    by_cases h0 : strcmp s e.dtstr = 0
    · have he : s = e.dtstr := (strcmp_eq_zero_iff _ _).1 h0
      rw [if_pos h0, spec_insert, if_pos he]
    · have he : ¬ s = e.dtstr := fun h => h0 ((strcmp_eq_zero_iff _ _).2 h)
      by_cases hlt : strcmp s e.dtstr < 0
      · rw [if_neg h0, if_pos hlt, spec_insert, if_neg he, if_pos hlt]
        simp [insert_before, make_entry, htake]
      · rw [if_neg h0, if_neg hlt, spec_insert, if_neg he, if_neg hlt]
        simp [append_after, make_entry, htake, spec_insert]
  | cons e2 rest2 ih =>
    intro e
    unfold insert_walk
    by_cases h0 : strcmp s e.dtstr = 0
    · have he : s = e.dtstr := (strcmp_eq_zero_iff _ _).1 h0
      rw [if_pos h0, spec_insert, if_pos he]
    · have he : ¬ s = e.dtstr := fun h => h0 ((strcmp_eq_zero_iff _ _).2 h)
      by_cases hlt : strcmp s e.dtstr < 0
      · rw [if_neg h0, if_pos hlt, spec_insert, if_neg he, if_pos hlt]
        simp [insert_before, make_entry, htake]
      · rw [if_neg h0, if_neg hlt]
        conv_rhs => rw [spec_insert, if_neg he, if_neg hlt]
        simp only [ih e2]

theorem insert_or_match_eq_spec (l : List dtv_t) (s : List Char) (hs : s.length ≤ 25) :
    insert_or_match true l s = (VALIDATED, spec_insert s l) := by
  cases l with
  | nil =>
    simp [insert_or_match, make_entry, spec_insert, List.take_of_length_le hs]
  | cons e rest =>
    unfold insert_or_match
    exact insert_walk_eq_spec s hs rest e

theorem insert_walk_false (s : List Char) (rest : List dtv_t) :
    ∀ e : dtv_t, insert_walk false s e rest = (INVALID_MEMORY, e :: rest)
      ∨ (insert_walk false s e rest = insert_walk true s e rest
          ∧ (insert_walk false s e rest).1 = VALIDATED) := by
  induction rest with
  | nil =>
    intro e
    unfold insert_walk
    by_cases h0 : strcmp s e.dtstr = 0
    · right
      simp [h0]
    · left
      by_cases hlt : strcmp s e.dtstr < 0 <;>
        simp [h0, hlt, make_entry, insert_before, append_after]
  | cons e2 rest2 ih =>
    intro e
    by_cases h0 : strcmp s e.dtstr = 0
    · right
      unfold insert_walk
      simp [h0]
    · by_cases hlt : strcmp s e.dtstr < 0
      · left
        unfold insert_walk
        simp [h0, hlt, make_entry, insert_before]
      · have hf : insert_walk false s e (e2 :: rest2)
            = ((insert_walk false s e2 rest2).1, e :: (insert_walk false s e2 rest2).2) := by
          rw [insert_walk, if_neg h0, if_neg hlt]
        have ht : insert_walk true s e (e2 :: rest2)
            = ((insert_walk true s e2 rest2).1, e :: (insert_walk true s e2 rest2).2) := by
          rw [insert_walk, if_neg h0, if_neg hlt]
        rcases ih e2 with h | ⟨h1, h2⟩
        · left
          rw [hf, h]
        · right
          rw [hf, ht, h1]
          refine ⟨rfl, ?_⟩
          rw [← h1]
          exact h2

theorem insert_or_match_false (l : List dtv_t) (s : List Char) :
    insert_or_match false l s = (INVALID_MEMORY, l)
      ∨ (insert_or_match false l s = insert_or_match true l s
          ∧ (insert_or_match false l s).1 = VALIDATED) := by
  cases l with
  | nil =>
    left
    simp [insert_or_match, make_entry]
  | cons e rest =>
    unfold insert_or_match
    exact insert_walk_false s rest e


theorem mem_spec_insert (s : List Char) (l : List dtv_t) (x : dtv_t)
    (hx : x ∈ spec_insert s l) :
    x = ⟨s, 1⟩ ∨ x ∈ l ∨ ∃ y ∈ l, y.dtstr = s ∧ x = { y with count := y.count + 1 } := by
  induction l with
  | nil =>
    simp only [spec_insert, List.mem_singleton] at hx
    exact Or.inl hx
  | cons e rest ih =>
    unfold spec_insert at hx
    by_cases he : s = e.dtstr
    · rw [if_pos he] at hx
      rcases List.mem_cons.1 hx with h | h
      · exact Or.inr (Or.inr ⟨e, List.mem_cons_self _ _, he.symm, h⟩)
      · exact Or.inr (Or.inl (List.mem_cons_of_mem _ h))
    · rw [if_neg he] at hx
      by_cases hlt : strcmp s e.dtstr < 0
      · rw [if_pos hlt] at hx
        rcases List.mem_cons.1 hx with h | h
        · exact Or.inl h
        · exact Or.inr (Or.inl h)
      · rw [if_neg hlt] at hx
        rcases List.mem_cons.1 hx with h | h
        · exact Or.inr (Or.inl (h ▸ List.mem_cons_self _ _))
        · rcases ih h with h1 | h1 | ⟨y, hy, h1, h2⟩
          · exact Or.inl h1
          · exact Or.inr (Or.inl (List.mem_cons_of_mem _ h1))
          · exact Or.inr (Or.inr ⟨y, List.mem_cons_of_mem _ hy, h1, h2⟩)

theorem spec_insert_ascending (s : List Char) (l : List dtv_t) (hl : ascending l) :
    ascending (spec_insert s l) := by
  unfold ascending at hl ⊢
  induction l with
  | nil => simp [spec_insert]
  | cons e rest ih =>
    have hrest := (List.pairwise_cons.1 hl).2
    have hhead := (List.pairwise_cons.1 hl).1
    unfold spec_insert
    by_cases he : s = e.dtstr
    · rw [if_pos he]
      exact List.pairwise_cons.2 ⟨hhead, hrest⟩
    · rw [if_neg he]
      by_cases hlt : strcmp s e.dtstr < 0
      · rw [if_pos hlt]
        refine List.pairwise_cons.2 ⟨?_, hl⟩
        intro y hy
        rcases List.mem_cons.1 hy with h | h
        · rw [h]
          exact hlt
        · exact strcmp_trans _ _ _ hlt (hhead y h)
      · rw [if_neg hlt]
        refine List.pairwise_cons.2 ⟨?_, ih hrest⟩
        intro y hy
        have hes : strcmp e.dtstr s < 0 := by
          rw [strcmp_neg_iff_pos]
          have h0 : strcmp s e.dtstr ≠ 0 := fun h => he ((strcmp_eq_zero_iff _ _).1 h)
          omega
        rcases mem_spec_insert s rest y hy with h | h | ⟨z, hz, h1, h2⟩
        · rw [h]
          exact hes
        · exact hhead y h
        · rw [h2]
          exact hhead z hz

theorem ascending_nodup (l : List dtv_t) (hl : ascending l) :
    (l.map (fun e => e.dtstr)).Nodup := by
  unfold ascending at hl
  unfold List.Nodup
  rw [List.pairwise_map]
  exact hl.imp (fun h => strcmp_ne_of_neg _ _ h)

theorem insert_or_match_ascending (alloc : Bool) (l : List dtv_t) (s : List Char)
    (hs : s.length ≤ 25) (hl : ascending l) : ascending (insert_or_match alloc l s).2 := by
  have ht : ascending (insert_or_match true l s).2 := by
    rw [insert_or_match_eq_spec l s hs]
    exact spec_insert_ascending s l hl
  cases alloc with
  | true => exact ht
  | false =>
    rcases insert_or_match_false l s with h | ⟨h, _⟩
    · rw [h]
      exact hl
    · rw [h]
      exact ht

theorem insert_all_append (l : List dtv_t) (a b : List (List Char)) :
    insert_all l (a ++ b) = insert_all (insert_all l a) b := by
  unfold insert_all
  rw [List.foldl_append]

theorem insert_all_cons (l : List dtv_t) (s : List Char) (seq : List (List Char)) :
    insert_all l (s :: seq) = insert_all (insert_or_match true l s).2 seq := rfl

theorem insert_all_ascending (seq : List (List Char)) (hseq : ∀ s ∈ seq, s.length ≤ 25) :
    ∀ l : List dtv_t, ascending l → ascending (insert_all l seq) := by
  induction seq with
  | nil =>
    intro l hl
    exact hl
  | cons s rest ih =>
    intro l hl
    rw [insert_all_cons]
    exact ih (fun t ht => hseq t (List.mem_cons_of_mem _ ht)) _
      (insert_or_match_ascending true l s (hseq s (List.mem_cons_self _ _)) hl)

theorem count_of_nil (t : List Char) : count_of [] t = 0 := rfl

theorem count_of_cons (e : dtv_t) (l : List dtv_t) (t : List Char) :
    count_of (e :: l) t = (if e.dtstr = t then e.count else 0) + count_of l t := by
  unfold count_of
  by_cases h : e.dtstr = t
  · simp [List.filter_cons, h]
  · simp [List.filter_cons, h]

theorem count_of_spec_insert (s : List Char) (l : List dtv_t) (t : List Char) :
    count_of (spec_insert s l) t = count_of l t + (if t = s then 1 else 0) := by
  induction l with
  | nil =>
    by_cases h : t = s
    · subst h
      simp [spec_insert, count_of_cons, count_of_nil]
    · have h2 : ¬ s = t := fun e => h e.symm
      simp [spec_insert, count_of_cons, count_of_nil, h, h2]
  | cons e rest ih =>
    unfold spec_insert
    by_cases he : s = e.dtstr
    · rw [if_pos he]
      simp only [count_of_cons]
      by_cases h : t = s
      · have h2 : e.dtstr = t := by rw [h, he]
        simp only [h2, h, if_true]
        omega
      · have h2 : ¬ e.dtstr = t := fun e2 => h (by rw [← e2, he])
        simp only [h2, h, if_false]
        omega
    · rw [if_neg he]
      by_cases hlt : strcmp s e.dtstr < 0
      · rw [if_pos hlt]
        simp only [count_of_cons]
        by_cases h : t = s
        · have h2 : s = t := h.symm
          simp only [h2, if_true]
          omega
        · have h2 : ¬ s = t := fun e => h e.symm
          simp only [h, h2, if_false]
          omega
      · rw [if_neg hlt]
        simp only [count_of_cons, ih]
        omega

theorem count_of_insert_all (seq : List (List Char)) (hseq : ∀ s ∈ seq, s.length ≤ 25)
    (t : List Char) :
    ∀ l : List dtv_t, count_of (insert_all l seq) t = count_of l t + (seq.count t : Int) := by
  induction seq with
  | nil =>
    intro l
    simp [insert_all]
  | cons s rest ih =>
    intro l
    rw [insert_all_cons, ih (fun u hu => hseq u (List.mem_cons_of_mem _ hu)),
      insert_or_match_eq_spec l s (hseq s (List.mem_cons_self _ _)), count_of_spec_insert]
    by_cases h : t = s
    · subst h
      simp only [if_true, List.count_cons_self]
      push_cast
      omega
    · have h2 : ¬ s = t := fun e => h e.symm
      have h3 : (s == t) = false := by simpa using h2
      simp only [h, if_false, List.count_cons, h3]
      simp

/-- Every record has a counter of at least 1. -/
def counts_positive (l : List dtv_t) : Prop := ∀ e ∈ l, 1 ≤ e.count

theorem spec_insert_counts_positive (s : List Char) (l : List dtv_t) (hl : counts_positive l) :
    counts_positive (spec_insert s l) := by
  intro x hx
  rcases mem_spec_insert s l x hx with h | h | ⟨y, hy, _, h2⟩
  · rw [h]
  · exact hl x h
  · rw [h2]
    have := hl y hy
    show 1 ≤ y.count + 1
    omega

theorem insert_all_counts_positive (seq : List (List Char)) (hseq : ∀ s ∈ seq, s.length ≤ 25) :
    ∀ l : List dtv_t, counts_positive l → counts_positive (insert_all l seq) := by
  induction seq with
  | nil =>
    intro l hl
    exact hl
  | cons s rest ih =>
    intro l hl
    rw [insert_all_cons, insert_or_match_eq_spec l s (hseq s (List.mem_cons_self _ _))]
    exact ih (fun t ht => hseq t (List.mem_cons_of_mem _ ht)) _
      (spec_insert_counts_positive s l hl)

theorem count_of_eq_zero (l : List dtv_t) (t : List Char) (h : ∀ e ∈ l, e.dtstr ≠ t) :
    count_of l t = 0 := by
  induction l with
  | nil => rfl
  | cons e rest ih =>
    rw [count_of_cons, if_neg (h e (List.mem_cons_self _ _)),
      ih (fun x hx => h x (List.mem_cons_of_mem _ hx))]
    rfl

theorem count_of_nonneg (l : List dtv_t) (t : List Char) (hp : counts_positive l) :
    0 ≤ count_of l t := by
  induction l with
  | nil => exact le_of_eq rfl
  | cons e rest ih =>
    rw [count_of_cons]
    have h1 := ih (fun x hx => hp x (List.mem_cons_of_mem _ hx))
    have h2 := hp e (List.mem_cons_self _ _)
    split_ifs <;> omega

theorem count_of_pos_of_mem (l : List dtv_t) (e : dtv_t) (hp : counts_positive l)
    (he : e ∈ l) : 1 ≤ count_of l e.dtstr := by
  induction l with
  | nil => exact absurd he (List.not_mem_nil _)
  | cons x rest ih =>
    rw [count_of_cons]
    have hrest : counts_positive rest := fun y hy => hp y (List.mem_cons_of_mem _ hy)
    have h1 := count_of_nonneg rest e.dtstr hrest
    have h2 := hp x (List.mem_cons_self _ _)
    rcases List.mem_cons.1 he with h | h
    · subst h
      rw [if_pos rfl]
      omega
    · have h3 := ih hrest h
      split_ifs <;> omega

theorem count_of_head_ascending (e : dtv_t) (rest : List dtv_t) (hl : ascending (e :: rest)) :
    count_of (e :: rest) e.dtstr = e.count := by
  rw [count_of_cons, if_pos rfl, count_of_eq_zero rest e.dtstr, add_zero]
  intro x hx heq
  have := (List.pairwise_cons.1 hl).1 x hx
  exact strcmp_ne_of_neg _ _ this heq.symm

theorem count_of_mem_ascending (l : List dtv_t) (e : dtv_t) (hl : ascending l) (he : e ∈ l) :
    count_of l e.dtstr = e.count := by
  induction l with
  | nil => exact absurd he (List.not_mem_nil _)
  | cons x rest ih =>
    rcases List.mem_cons.1 he with h | h
    · subst h
      exact count_of_head_ascending e rest hl
    · have hne : ¬ x.dtstr = e.dtstr :=
        strcmp_ne_of_neg _ _ ((List.pairwise_cons.1 hl).1 e h)
      rw [count_of_cons, if_neg hne, ih (List.pairwise_cons.1 hl).2 h]
      omega

theorem ascending_unique (l1 : List dtv_t) :
    ∀ l2 : List dtv_t, ascending l1 → ascending l2 → counts_positive l1 → counts_positive l2 →
      (∀ t, count_of l1 t = count_of l2 t) → l1 = l2 := by
  induction l1 with
  | nil =>
    intro l2 _ _ _ hp2 hc
    cases l2 with
    | nil => rfl
    | cons e2 t2 =>
      have h1 := count_of_pos_of_mem (e2 :: t2) e2 hp2 (List.mem_cons_self _ _)
      rw [← hc e2.dtstr, count_of_nil] at h1
      omega
  | cons e1 t1 ih =>
    intro l2 ha1 ha2 hp1 hp2 hc
    cases l2 with
    | nil =>
      have h1 := count_of_pos_of_mem (e1 :: t1) e1 hp1 (List.mem_cons_self _ _)
      rw [hc e1.dtstr, count_of_nil] at h1
      omega
    | cons e2 t2 =>
      have hstr : e1.dtstr = e2.dtstr := by
        by_contra hne
        have h0 : strcmp e1.dtstr e2.dtstr ≠ 0 := fun h => hne ((strcmp_eq_zero_iff _ _).1 h)
        by_cases hlt : strcmp e1.dtstr e2.dtstr < 0
        · have hz : count_of (e2 :: t2) e1.dtstr = 0 := by
            apply count_of_eq_zero
            intro x hx heq
            rcases List.mem_cons.1 hx with h | h
            · subst h
              exact hne heq.symm
            · have h1 := strcmp_trans _ _ _ hlt ((List.pairwise_cons.1 ha2).1 x h)
              exact strcmp_ne_of_neg _ _ h1 heq.symm
          have h1 := count_of_pos_of_mem (e1 :: t1) e1 hp1 (List.mem_cons_self _ _)
          rw [hc, hz] at h1
          omega
        · have hgt : strcmp e2.dtstr e1.dtstr < 0 := by
            rw [strcmp_neg_iff_pos]
            omega
          have hz : count_of (e1 :: t1) e2.dtstr = 0 := by
            apply count_of_eq_zero
            intro x hx heq
            rcases List.mem_cons.1 hx with h | h
            · subst h
              exact hne heq
            · have h1 := strcmp_trans _ _ _ hgt ((List.pairwise_cons.1 ha1).1 x h)
              exact strcmp_ne_of_neg _ _ h1 heq.symm
          have h1 := count_of_pos_of_mem (e2 :: t2) e2 hp2 (List.mem_cons_self _ _)
          rw [← hc, hz] at h1
          omega
      have hcnt : e1.count = e2.count := by
        have h1 := count_of_head_ascending e1 t1 ha1
        have h2 := count_of_head_ascending e2 t2 ha2
        rw [← h1, ← h2, hc, hstr]
      have he : e1 = e2 := by
        cases e1
        cases e2
        simp only [dtv_t.mk.injEq]
        exact ⟨hstr, hcnt⟩
      subst he
      congr 1
      apply ih t2 (List.pairwise_cons.1 ha1).2 (List.pairwise_cons.1 ha2).2
        (fun x hx => hp1 x (List.mem_cons_of_mem _ hx))
        (fun x hx => hp2 x (List.mem_cons_of_mem _ hx))
      intro t
      have h := hc t
      rw [count_of_cons, count_of_cons] at h
      omega

theorem insert_walk_match (alloc : Bool) (s : List Char) (x : dtv_t) (post : List dtv_t)
    (hx : x.dtstr = s) :
    ∀ (pre : List dtv_t) (e : dtv_t) (rest : List dtv_t), e :: rest = pre ++ x :: post →
      ascending (e :: rest) →
      insert_walk alloc s e rest = (VALIDATED, pre ++ { x with count := x.count + 1 } :: post) := by
  intro pre
  induction pre with
  | nil =>
    intro e rest heq _
    simp only [List.nil_append, List.cons.injEq] at heq
    obtain ⟨h1, h2⟩ := heq
    subst h1 h2
    unfold insert_walk
    have h0 : strcmp s e.dtstr = 0 := (strcmp_eq_zero_iff _ _).2 hx.symm
    rw [if_pos h0]
    rfl
  | cons p pre2 ih =>
    intro e rest heq hasc
    simp only [List.cons_append, List.cons.injEq] at heq
    obtain ⟨h1, h2⟩ := heq
    subst h1
    have hxmem : x ∈ rest := by
      rw [h2]
      simp
    have hlt : strcmp e.dtstr s < 0 := by
      rw [← hx]
      exact (List.pairwise_cons.1 hasc).1 x hxmem
    have hpos : 0 < strcmp s e.dtstr := (strcmp_neg_iff_pos _ _).1 hlt
    have h0 : ¬ strcmp s e.dtstr = 0 := by omega
    have hn : ¬ strcmp s e.dtstr < 0 := by omega
    cases rest with
    | nil => exact absurd hxmem (List.not_mem_nil _)
    | cons e2 rest2 =>
      rw [insert_walk, if_neg h0, if_neg hn, ih e2 rest2 h2 (List.pairwise_cons.1 hasc).2]
      rfl

theorem insert_or_match_match (alloc : Bool) (s : List Char) (pre : List dtv_t) (x : dtv_t)
    (post : List dtv_t) (hx : x.dtstr = s) (hasc : ascending (pre ++ x :: post)) :
    insert_or_match alloc (pre ++ x :: post) s
      = (VALIDATED, pre ++ { x with count := x.count + 1 } :: post) := by
  cases hl : pre ++ x :: post with
  | nil => simp at hl
  | cons e rest =>
    rw [hl] at hasc
    unfold insert_or_match
    exact insert_walk_match alloc s x post hx pre e rest hl.symm hasc

theorem spec_insert_no_match (s : List Char) (l : List dtv_t) (h : ∀ x ∈ l, x.dtstr ≠ s) :
    spec_insert s l
      = l.takeWhile (fun x => decide (¬ strcmp s x.dtstr < 0))
          ++ ⟨s, 1⟩ :: l.dropWhile (fun x => decide (¬ strcmp s x.dtstr < 0)) := by
  induction l with
  | nil => rfl
  | cons e rest ih =>
    have he : ¬ s = e.dtstr := fun h2 => h e (List.mem_cons_self _ _) h2.symm
    unfold spec_insert
    rw [if_neg he]
    by_cases hlt : strcmp s e.dtstr < 0
    · rw [if_pos hlt]
      have hp : ¬ (decide (¬ strcmp s e.dtstr < 0) = true) := by
        rw [decide_eq_true_eq]
        exact fun hn => hn hlt
      rw [@List.takeWhile_cons_of_neg dtv_t (fun x => decide (¬ strcmp s x.dtstr < 0)) e rest hp,
        @List.dropWhile_cons_of_neg dtv_t (fun x => decide (¬ strcmp s x.dtstr < 0)) e rest hp]
      rfl
    · rw [if_neg hlt, ih (fun x hx => h x (List.mem_cons_of_mem _ hx))]
      have hp : decide (¬ strcmp s e.dtstr < 0) = true := decide_eq_true hlt
      rw [@List.takeWhile_cons_of_pos dtv_t (fun x => decide (¬ strcmp s x.dtstr < 0)) e rest hp,
        @List.dropWhile_cons_of_pos dtv_t (fun x => decide (¬ strcmp s x.dtstr < 0)) e rest hp]
      rfl

/-! ## Claims on the dedup store -/

/-- C11: for every collection in strictly ascending `strcmp` order and every string of
at most 25 characters, the collection after `insert_or_match` is again strictly
ascending and no two records share a string (whether or not the allocation
succeeds); hence every collection built from the empty one by a sequence of such
insertions is strictly ascending and duplicate-free, and the strings of 2023,
2021, 2022 inserted in that order end up in ascending order. -/
theorem insert_or_match_keeps_order (alloc : Bool) (l : List dtv_t) (s : List Char)
    (hs : s.length ≤ 25) (hl : ascending l) :
    ascending (insert_or_match alloc l s).2
    ∧ ((insert_or_match alloc l s).2.map (fun e => e.dtstr)).Nodup
    ∧ (∀ seq : List { u : List Char // u.length ≤ 25 },
        ascending (insert_all [] (seq.map Subtype.val))
        ∧ ((insert_all [] (seq.map Subtype.val)).map (fun e => e.dtstr)).Nodup)
    ∧ insert_all [] ["2023-01-15T10:30:00Z".toList, "2021-01-15T10:30:00Z".toList,
          "2022-01-15T10:30:00Z".toList]
        = [⟨"2021-01-15T10:30:00Z".toList, 1⟩, ⟨"2022-01-15T10:30:00Z".toList, 1⟩,
            ⟨"2023-01-15T10:30:00Z".toList, 1⟩] := by
  have h1 := insert_or_match_ascending alloc l s hs hl
  refine ⟨h1, ascending_nodup _ h1, ?_, by decide⟩
  intro seq
  have hseq : ∀ u ∈ seq.map Subtype.val, u.length ≤ 25 := by
    intro u hu
    obtain ⟨v, _, hv⟩ := List.mem_map.1 hu
    rw [← hv]
    exact v.property
  have h2 : ascending (insert_all [] (seq.map Subtype.val)) :=
    insert_all_ascending _ hseq [] List.Pairwise.nil
  exact ⟨h2, ascending_nodup _ h2⟩

/-- Witness of C11: the string of 2022 inserted into the collection of 2021 and 2023. -/
theorem insert_or_match_keeps_order_witness :
    ascending [⟨"2021-01-15T10:30:00Z".toList, 1⟩, ⟨"2023-01-15T10:30:00Z".toList, 4⟩]
    ∧ ascending (insert_or_match true
        [⟨"2021-01-15T10:30:00Z".toList, 1⟩, ⟨"2023-01-15T10:30:00Z".toList, 4⟩]
        "2022-01-15T10:30:00Z".toList).2 :=
  have hl : ascending
      [⟨"2021-01-15T10:30:00Z".toList, 1⟩, ⟨"2023-01-15T10:30:00Z".toList, 4⟩] := by
    unfold ascending
    decide
  ⟨hl, (insert_or_match_keeps_order true _ "2022-01-15T10:30:00Z".toList (by decide) hl).1⟩

/-- C12: for every finite sequence of strings of at most 25 characters inserted one
after another into the empty collection, allocation succeeding, the result is in
ascending order, has a record for exactly the strings of the sequence, and the
count of each record is the number of occurrences of its string in the sequence;
the result is the same for every reordering of the sequence, and a string
inserted twice yields one record with count 2. -/
theorem insert_all_counts (seq : List (List Char)) (hseq : ∀ s ∈ seq, s.length ≤ 25) :
    ascending (insert_all [] seq)
    ∧ ((insert_all [] seq).map (fun e => e.dtstr)).Nodup
    ∧ (∀ t, t ∈ (insert_all [] seq).map (fun e => e.dtstr) ↔ t ∈ seq)
    ∧ (∀ e ∈ insert_all [] seq, e.count = (seq.count e.dtstr : Int))
    ∧ (∀ seq2 : List (List Char), seq2.Perm seq → insert_all [] seq2 = insert_all [] seq)
    ∧ (∀ u : List Char, u.length ≤ 25 → insert_all [] [u, u] = [⟨u, 2⟩]) := by
  have hasc : ascending (insert_all [] seq) := insert_all_ascending seq hseq [] List.Pairwise.nil
  have hpos : counts_positive (insert_all [] seq) :=
    insert_all_counts_positive seq hseq [] (fun e he => absurd he (List.not_mem_nil _))
  have hcnt : ∀ t, count_of (insert_all [] seq) t = (seq.count t : Int) := by
    intro t
    rw [count_of_insert_all seq hseq t [], count_of_nil, zero_add]
  have hrec : ∀ e ∈ insert_all [] seq, e.count = (seq.count e.dtstr : Int) := by
    intro e he
    rw [← hcnt, count_of_mem_ascending _ e hasc he]
  refine ⟨hasc, ascending_nodup _ hasc, ?_, hrec, ?_, ?_⟩
  · intro t
    constructor
    · intro ht
      obtain ⟨e, he, hes⟩ := List.mem_map.1 ht
      have h1 := hpos e he
      rw [hrec e he, hes] at h1
      have h2 : 0 < seq.count t := by omega
      exact List.count_pos_iff.1 h2
    · intro ht
      have h2 : 0 < seq.count t := List.count_pos_iff.2 ht
      by_contra hn
      have hz : count_of (insert_all [] seq) t = 0 := by
        apply count_of_eq_zero
        intro e he heq
        exact hn (List.mem_map.2 ⟨e, he, heq⟩)
      rw [hcnt] at hz
      omega
  · intro seq2 hperm
    have hseq2 : ∀ s ∈ seq2, s.length ≤ 25 := fun s hs => hseq s (hperm.mem_iff.1 hs)
    apply ascending_unique _ _ (insert_all_ascending seq2 hseq2 [] List.Pairwise.nil) hasc
      (insert_all_counts_positive seq2 hseq2 [] (fun e he => absurd he (List.not_mem_nil _)))
      hpos
    intro t
    rw [hcnt, count_of_insert_all seq2 hseq2 t [], count_of_nil, zero_add]
    have hc2 : List.count t seq2 = List.count t seq := hperm.countP_eq _
    rw [hc2]
  · intro u hu
    simp [insert_all, insert_or_match_eq_spec _ _ hu, spec_insert]

/-- Witness of C12: the sequence 2023, 2021, 2023. -/
theorem insert_all_counts_witness :
    insert_all [] ["2023-01-15T10:30:00Z".toList, "2021-01-15T10:30:00Z".toList,
        "2023-01-15T10:30:00Z".toList]
      = [⟨"2021-01-15T10:30:00Z".toList, 1⟩, ⟨"2023-01-15T10:30:00Z".toList, 2⟩]
    ∧ ascending (insert_all [] ["2023-01-15T10:30:00Z".toList, "2021-01-15T10:30:00Z".toList,
        "2023-01-15T10:30:00Z".toList]) :=
  ⟨by decide, (insert_all_counts ["2023-01-15T10:30:00Z".toList, "2021-01-15T10:30:00Z".toList,
    "2023-01-15T10:30:00Z".toList] (by decide)).1⟩

/-- C13: for every strictly ascending collection and every string `s` of at most 25
characters, `insert_or_match` with a succeeding allocation returns VALIDATED and
either some record holds `s` and the result is the same collection with only the
counter of that record increased by 1, or no record holds `s` and the result is
the old collection with the record (`s`, 1) spliced in immediately before the
first record whose string is greater than `s`, or at the end if there is none;
into the empty collection it is the sole record. -/
theorem insert_or_match_result (l : List dtv_t) (s : List Char) (hs : s.length ≤ 25)
    (hl : ascending l) :
    (insert_or_match true l s).1 = VALIDATED
    ∧ ((∃ pre x post, l = pre ++ x :: post ∧ x.dtstr = s
          ∧ (insert_or_match true l s).2 = pre ++ { x with count := x.count + 1 } :: post)
        ∨ ((∀ x ∈ l, x.dtstr ≠ s)
          ∧ (insert_or_match true l s).2
              = l.takeWhile (fun x => decide (¬ strcmp s x.dtstr < 0))
                  ++ ⟨s, 1⟩ :: l.dropWhile (fun x => decide (¬ strcmp s x.dtstr < 0))))
    ∧ l.takeWhile (fun x => decide (¬ strcmp s x.dtstr < 0))
        ++ l.dropWhile (fun x => decide (¬ strcmp s x.dtstr < 0)) = l
    ∧ insert_or_match true [] s = (VALIDATED, [⟨s, 1⟩]) := by
  refine ⟨?_, ?_, List.takeWhile_append_dropWhile _ l, ?_⟩
  · rw [insert_or_match_eq_spec l s hs]
  · by_cases hex : ∃ x ∈ l, x.dtstr = s
    · left
      obtain ⟨x, hx, hxs⟩ := hex
      obtain ⟨pre, post, hsplit⟩ := List.append_of_mem hx
      refine ⟨pre, x, post, hsplit, hxs, ?_⟩
      rw [hsplit] at hl ⊢
      rw [insert_or_match_match true s pre x post hxs hl]
    · right
      have hno : ∀ x ∈ l, x.dtstr ≠ s := fun x hx hxs => hex ⟨x, hx, hxs⟩
      refine ⟨hno, ?_⟩
      rw [insert_or_match_eq_spec l s hs, spec_insert_no_match s l hno]
  · rw [insert_or_match_eq_spec [] s hs]
    rfl

/-- Witness of C13: the string of 2022 goes between the records of 2021 and 2023. -/
theorem insert_or_match_result_witness :
    ascending [⟨"2021-01-15T10:30:00Z".toList, 1⟩, ⟨"2023-01-15T10:30:00Z".toList, 4⟩]
    ∧ (insert_or_match true
        [⟨"2021-01-15T10:30:00Z".toList, 1⟩, ⟨"2023-01-15T10:30:00Z".toList, 4⟩]
        "2022-01-15T10:30:00Z".toList).1 = VALIDATED
    ∧ (insert_or_match true
        [⟨"2021-01-15T10:30:00Z".toList, 1⟩, ⟨"2023-01-15T10:30:00Z".toList, 4⟩]
        "2022-01-15T10:30:00Z".toList).2
        = [⟨"2021-01-15T10:30:00Z".toList, 1⟩, ⟨"2022-01-15T10:30:00Z".toList, 1⟩,
            ⟨"2023-01-15T10:30:00Z".toList, 4⟩] :=
  have hl : ascending
      [⟨"2021-01-15T10:30:00Z".toList, 1⟩, ⟨"2023-01-15T10:30:00Z".toList, 4⟩] := by
    unfold ascending
    decide
  ⟨hl, (insert_or_match_result _ "2022-01-15T10:30:00Z".toList (by decide) hl).1, by decide⟩

/-- C14: for every collection and string, when the allocation fails `insert_or_match`
either returns INVALID_MEMORY with the collection exactly as before, or it made
no allocation (its result is the one it has with a succeeding allocation, and
is VALIDATED); and when the string equals that of a record of an ascending
collection, the result is VALIDATED with that counter incremented whatever the
allocator does. -/
theorem insert_or_match_alloc_failure (l : List dtv_t) (s : List Char) :
    (insert_or_match false l s = (INVALID_MEMORY, l)
      ∨ (insert_or_match false l s = insert_or_match true l s
          ∧ (insert_or_match false l s).1 = VALIDATED))
    ∧ ((insert_or_match false l s).1 = INVALID_MEMORY → (insert_or_match false l s).2 = l)
    ∧ (ascending l → ∀ pre x post, l = pre ++ x :: post → x.dtstr = s →
        ∀ alloc, insert_or_match alloc l s
          = (VALIDATED, pre ++ { x with count := x.count + 1 } :: post))
    ∧ insert_or_match false [⟨"2021-01-15T10:30:00Z".toList, 1⟩] "2023-01-15T10:30:00Z".toList
        = (INVALID_MEMORY, [⟨"2021-01-15T10:30:00Z".toList, 1⟩])
    ∧ insert_or_match false [⟨"2021-01-15T10:30:00Z".toList, 1⟩] "2021-01-15T10:30:00Z".toList
        = (VALIDATED, [⟨"2021-01-15T10:30:00Z".toList, 2⟩]) := by
  refine ⟨insert_or_match_false l s, ?_, ?_, by decide, by decide⟩
  · intro h
    rcases insert_or_match_false l s with h1 | ⟨_, h2⟩
    · rw [h1]
    · rw [h2] at h
      exact absurd h (by decide)
  · intro hl pre x post hsplit hxs alloc
    rw [hsplit] at hl ⊢
    exact insert_or_match_match alloc s pre x post hxs hl

/-! ## The stream scanner: `main` of `findUTC.c`

The input stream is the list of the characters still unread; it holds text (no NUL
character) and `fgets` fails only at its end. The buffer `line` is the C string it
holds. A run ends with the collection that `main` prints, or in one of the ways
of `stop_t`. -/

/-- Buffer capacity `MAX_LINE_LEN` of `findUTC.c`. -/
def MAX_LINE_LEN : Nat := 500

/-- Enumerator `TABLE_FORM` of `parse_formats_l`. -/
def TABLE_FORM : Int := 0

/-- Enumerator `TEXT_FORM` of `parse_formats_l`. -/
def TEXT_FORM : Int := 1

/-- Ways a run stops without a report. -/
inductive stop_t
  /-- The call `cleanup(MEM_ALLOC, valid_list)` after a failed insertion. -/
  | MEM_ALLOC
  /-- A read outside the string held in a buffer: undefined behaviour in C. -/
  | UNDEFINED
  /-- The iteration bound of the embedding is used up (see `main_loop_inv`: it never is). -/
  | FUEL
  deriving DecidableEq, Repr

/-- Result of a part of a run: a value, or a stop. -/
inductive run_t (α : Type)
  | ok (a : α)
  | stop (why : stop_t)
  deriving DecidableEq, Repr

/-- Characters stored by `fgets` when at most `k` characters may be read: the
characters up to and including the first newline, and the rest of the stream. -/
def read_chunk : Nat → List Char → List Char × List Char
  | 0, s => ([], s)
  | _ + 1, [] => ([], [])
  | k + 1, c :: cs =>
    if c = '\n' then ([c], cs) else ((c :: (read_chunk k cs).1), (read_chunk k cs).2)

/-- The C library `fgets(buf, n, fptr)`: `none` is the NULL at the end of the stream;
otherwise the string stored (at most `n - 1` characters) and the rest of the stream. -/
def fgets (n : Nat) (stream : List Char) : Option (List Char × List Char) :=
  match stream with
  | [] => none
  | _ :: _ => some (read_chunk (n - 1) stream)

/-- The string in `line` after `fgets` has stored `chunk` at `line + pos`: the first
`pos` characters stay, and `chunk` follows them (a string shorter than `pos` would
end before the stored chunk). -/
def buffer_store (line : List Char) (pos : Nat) (chunk : List Char) : List Char :=
  if pos ≤ line.length then line.take pos ++ chunk else line

/-- Effect of one pass through the body of `while (loop_line)`: the loop goes on with
a new cursor and collection, or it ends. -/
inductive window_step_t
  /-- The loop goes on with `offset` and `valid_list` as given. -/
  | next (offset : Nat) (valid_list : List dtv_t)
  /-- The loop ends (`loop_line = 0`) with the collection and `clean_line` as given. -/
  | done (valid_list : List dtv_t) (clean_line : List Char)
  /-- The run stops. -/
  | stop (why : stop_t)
  deriving DecidableEq, Repr

/-- The body of the `while (loop_line)` loop of the case `TEXT_FORM`, lines 241-278,
with the cursor at `offset`. The window `line + offset` lies in the string only
for `offset` up to its length, and then `strlen(line) - offset` does not wrap. -/
def text_window_step (alloc : Bool) (line : List Char) (full_line_read : Bool)
    (offset : Nat) (valid_list : List dtv_t) : window_step_t :=
  if line.length < offset then window_step_t.stop stop_t.UNDEFINED
  else
    match format_match (strncpy_from line offset 25) UTC8601 with
    | none => window_step_t.stop stop_t.UNDEFINED
    | some (chk_val, clean_line) =>
      if chk_val = VALIDATED then
        if (insert_or_match alloc valid_list clean_line).1 ≠ VALIDATED then
          window_step_t.stop stop_t.MEM_ALLOC
        else
          window_step_t.next (offset + 20) (insert_or_match alloc valid_list clean_line).2
      else if (line.length - offset < 25 ∧ full_line_read = false)
          ∨ line.length - offset < 20 then
        window_step_t.done valid_list clean_line
      else window_step_t.next (offset + 1) valid_list

/-- The `while (loop_line)` loop of the case `TEXT_FORM`, lines 239-279, from the
cursor `offset`: the collection and the content of `clean_line` when the loop
ends. The first argument bounds the number of iterations. -/
def text_window_loop (alloc : Bool) (line : List Char) (full_line_read : Bool) :
    Nat → Nat → List dtv_t → run_t (List dtv_t × List Char)
  | 0, _, _ => run_t.stop stop_t.FUEL
  | fuel + 1, offset, valid_list =>
    match text_window_step alloc line full_line_read offset valid_list with
    | window_step_t.next offset2 valid_list2 =>
      text_window_loop alloc line full_line_read fuel offset2 valid_list2
    | window_step_t.done valid_list2 clean_line => run_t.ok (valid_list2, clean_line)
    | window_step_t.stop why => run_t.stop why

/-- The variables of `main` that live across iterations of `while (loop_file)`. -/
structure scan_state where
  /-- The string in the buffer `line`. -/
  line : List Char
  /-- The variable `line_fill_amount`. -/
  line_fill_amount : Nat
  /-- The variable `full_line_read`. -/
  full_line_read : Bool
  /-- The list behind `valid_list`. -/
  valid_list : List dtv_t
  deriving DecidableEq, Repr

/-- State of `main` before the first read. -/
def scan_init : scan_state := ⟨[], MAX_LINE_LEN, true, []⟩

/-- The case `TABLE_FORM`, lines 206-234, on the buffer `line`. -/
def table_case (alloc : Bool) (line_read_initial : Bool) (line : List Char)
    (valid_list : List dtv_t) : run_t (List Char × List dtv_t) :=
  if line_read_initial = false then run_t.ok (line, valid_list)
  else
    match format_match line UTC8601 with
    | none => run_t.stop stop_t.UNDEFINED
    | some (chk_val, line2) =>
      if chk_val = VALIDATED then
        if (insert_or_match alloc valid_list line2).1 ≠ VALIDATED then
          run_t.stop stop_t.MEM_ALLOC
        else run_t.ok (line2, (insert_or_match alloc valid_list line2).2)
      else run_t.ok (line2, valid_list)

/-- One pass through the body of `while (loop_file)` after a successful `fgets`,
lines 193-291, on the buffer content `line` and with `fill` the value of
`line_fill_amount` at the read: the state for the next iteration. -/
def process_chunk (alloc : Bool) (parse_form : Int) (line_read_initial : Bool)
    (fill : Nat) (line : List Char) (valid_list : List dtv_t) : run_t scan_state :=
  match line.getLast? with
  | none => run_t.stop stop_t.UNDEFINED
  | some last =>
    let full_line_read : Bool := decide (last = '\n')
    let line1 := if last = '\n' then line.dropLast else line
    if parse_form = TABLE_FORM then
      match table_case alloc line_read_initial line1 valid_list with
      | run_t.stop why => run_t.stop why
      | run_t.ok (line2, vl) => run_t.ok ⟨line2, fill, full_line_read, vl⟩
    else if parse_form = TEXT_FORM then
      match text_window_loop alloc line1 full_line_read (line1.length + 1) 0 valid_list with
      | run_t.stop why => run_t.stop why
      | run_t.ok (vl, clean_line) =>
        if full_line_read = false then
          run_t.ok ⟨clean_line, MAX_LINE_LEN - clean_line.length, full_line_read, vl⟩
        else run_t.ok ⟨line1, fill, full_line_read, vl⟩
    else run_t.ok ⟨line1, fill, full_line_read, valid_list⟩

/-- The loop `while (loop_file)` of `main`, lines 173-292: the collection that is
reported when `fgets` returns NULL. The first argument bounds the iterations. -/
def main_loop (alloc : Bool) (parse_form : Int) :
    Nat → List Char → scan_state → run_t (List dtv_t)
  | 0, _, _ => run_t.stop stop_t.FUEL
  | fuel + 1, stream, st =>
    let fill := if st.full_line_read then MAX_LINE_LEN else st.line_fill_amount
    match fgets fill stream with
    | none => run_t.ok st.valid_list
    | some (chunk, rest) =>
      match process_chunk alloc parse_form st.full_line_read fill
          (buffer_store st.line (MAX_LINE_LEN - fill) chunk) st.valid_list with
      | run_t.stop why => run_t.stop why
      | run_t.ok st2 => main_loop alloc parse_form fuel rest st2

/-- A run of `main` on the file content `stream`, allocation succeeding or failing
as `alloc` says: `main_loop` from the initial state, with an iteration bound that
every run stays below. -/
def scan (alloc : Bool) (parse_form : Int) (stream : List Char) : run_t (List dtv_t) :=
  main_loop alloc parse_form (stream.length + 1) stream scan_init

/-! ## Lemmas on the buffer that `format_match` leaves -/

theorem format_match_checks_buffer (d : List Char) (n : Int) (r : code_t) (b : List Char)
    (h : format_match_checks d n = some (r, b)) : b = d := by
  unfold format_match_checks at h
  split_ifs at h
  · exact (Prod.mk.inj (Option.some.inj h)).2.symm
  · exact (Prod.mk.inj (Option.some.inj h)).2.symm
  · exact (Prod.mk.inj (Option.some.inj h)).2.symm
  · exact (Prod.mk.inj (Option.some.inj h)).2.symm
  · rw [format_match_values_eq] at h
    exact (Prod.mk.inj (Option.some.inj h)).2.symm

theorem separators_ok_take (t : List Char) (h : separators_ok t) : separators_ok (t.take 20) := by
  unfold separators_ok at h ⊢
  rw [char_at_take t 20 4 (by decide), char_at_take t 20 7 (by decide),
    char_at_take t 20 10 (by decide), char_at_take t 20 13 (by decide),
    char_at_take t 20 16 (by decide)]
  exact h

theorem format_match_take_zulu (t : List Char) (h20 : 20 ≤ t.length) (h25 : t.length ≤ 25)
    (hsep : separators_ok t) (hz : char_at t 19 = 'Z') :
    format_match (t.take 20) UTC8601 = format_match t UTC8601 := by
  have hl : (t.take 20).length = 20 := by
    rw [List.length_take]
    omega
  have hz2 : char_at (t.take 20) 19 = 'Z' := by
    rw [char_at_take t 20 19 (by decide)]
    exact hz
  rw [format_match_zulu t h20 h25 hsep hz,
    format_match_zulu (t.take 20) (by omega) (by omega) (separators_ok_take t hsep) hz2,
    List.take_take]
  rfl

theorem format_match_validated_shape (t b : List Char)
    (h : format_match t UTC8601 = some (VALIDATED, b)) :
    20 ≤ t.length ∧ t.length ≤ 25 ∧ separators_ok t ∧ all_digits_at t date_time_positions
      ∧ ((char_at t 19 = 'Z' ∧ b = t.take 20)
        ∨ (t.length = 25 ∧ (char_at t 19 = '+' ∨ char_at t 19 = '-')
            ∧ char_at t 22 = ':' ∧ b = t)) := by
  by_cases hshape : 20 ≤ t.length ∧ t.length ≤ 25 ∧ separators_ok t
  · obtain ⟨h20, h25, hsep⟩ := hshape
    refine ⟨h20, h25, hsep, ?_⟩
    by_cases hz : char_at t 19 = 'Z'
    · rw [format_match_zulu t h20 h25 hsep hz] at h
      have hb := format_match_checks_buffer _ _ _ _ h
      rw [format_match_checks_20] at h
      by_cases hd : digits_ok (t.take 20) 0 14 = true
      · exact ⟨(all_digits_at_take t).1 ((digits_ok_date_time _).1 hd), Or.inl ⟨hz, hb⟩⟩
      · rw [if_neg hd] at h
        exact absurd (Prod.mk.inj (Option.some.inj h)).1 (by decide)
    · rw [format_match_no_zulu t h20 h25 hsep hz] at h
      by_cases hl20 : t.length = 20
      · rw [if_pos hl20] at h
        exact absurd (Prod.mk.inj (Option.some.inj h)).1 (by decide)
      · rw [if_neg hl20] at h
        have hb := format_match_checks_buffer _ _ _ _ h
        by_cases hl25 : t.length = 25
        · have hcast : ((t.length : Nat) : Int) = 25 := by omega
          rw [hcast, format_match_checks_25] at h
          by_cases hsign : char_at t 22 ≠ ':' ∨ (char_at t 19 ≠ '-' ∧ char_at t 19 ≠ '+')
          · rw [if_pos hsign] at h
            exact absurd (Prod.mk.inj (Option.some.inj h)).1 (by decide)
          · rw [if_neg hsign] at h
            by_cases hd14 : digits_ok t 0 14 = false
            · rw [if_pos hd14] at h
              exact absurd (Prod.mk.inj (Option.some.inj h)).1 (by decide)
            · have hd : digits_ok t 0 14 = true := by
                cases hb2 : digits_ok t 0 14
                · exact absurd hb2 hd14
                · rfl
              refine ⟨(digits_ok_date_time t).1 hd, Or.inr ⟨hl25, ?_, ?_, hb⟩⟩
              · by_contra hn
                exact hsign (Or.inr ⟨fun e => hn (Or.inr e), fun e => hn (Or.inl e)⟩)
              · by_contra hn
                exact hsign (Or.inl hn)
        · have hn20 : ((t.length : Nat) : Int) ≠ 20 := by omega
          have hn25 : ((t.length : Nat) : Int) ≠ 25 := by omega
          rw [format_match_checks_mid t _ hn20 hn25] at h
          exact absurd (Prod.mk.inj (Option.some.inj h)).1 (by decide)
  · rw [format_match_bad_shape t hshape] at h
    exact absurd (Prod.mk.inj (Option.some.inj h)).1 (by decide)

/-- A canonical string: `format_match` validates it and leaves it as it is, and it
has exactly 20 characters ending in Z, or exactly 25 characters with `+` or `-`
at position 19. -/
def canonical (s : List Char) : Prop :=
  format_match s UTC8601 = some (VALIDATED, s)
    ∧ ((s.length = 20 ∧ char_at s 19 = 'Z')
      ∨ (s.length = 25 ∧ (char_at s 19 = '+' ∨ char_at s 19 = '-')))

theorem format_match_validated_canonical (t b : List Char)
    (h : format_match t UTC8601 = some (VALIDATED, b)) : canonical b := by
  obtain ⟨h20, h25, hsep, _, hcase⟩ := format_match_validated_shape t b h
  rcases hcase with ⟨hz, hb⟩ | ⟨hl, hsign, _, hb⟩
  · subst hb
    refine ⟨?_, Or.inl ⟨?_, ?_⟩⟩
    · rw [format_match_take_zulu t h20 h25 hsep hz]
      exact h
    · rw [List.length_take]
      omega
    · rw [char_at_take t 20 19 (by decide)]
      exact hz
  · subst hb
    exact ⟨h, Or.inr ⟨hl, hsign⟩⟩

theorem canonical_length (s : List Char) (h : canonical s) : s.length ≤ 25 := by
  rcases h.2 with h1 | h1 <;> omega

theorem format_match_buffer_length (t : List Char) (r : code_t) (b : List Char)
    (h : format_match t UTC8601 = some (r, b)) : b.length ≤ t.length := by
  by_cases hshape : 20 ≤ t.length ∧ t.length ≤ 25 ∧ separators_ok t
  · obtain ⟨h20, h25, hsep⟩ := hshape
    by_cases hz : char_at t 19 = 'Z'
    · rw [format_match_zulu t h20 h25 hsep hz] at h
      rw [format_match_checks_buffer _ _ _ _ h, List.length_take]
      omega
    · rw [format_match_no_zulu t h20 h25 hsep hz] at h
      by_cases hl20 : t.length = 20
      · rw [if_pos hl20] at h
        rw [← (Prod.mk.inj (Option.some.inj h)).2]
      · rw [if_neg hl20] at h
        rw [format_match_checks_buffer _ _ _ _ h]
  · rw [format_match_bad_shape t hshape] at h
    rw [← (Prod.mk.inj (Option.some.inj h)).2]

/-! ## The windows of the text-mode scan -/

/-- Canonical string of the 25-character window of `line` at position `i`, when
`format_match` validates the window. -/
def window_match (line : List Char) (i : Nat) : Option (List Char) :=
  match format_match (strncpy_from line i 25) UTC8601 with
  | some (r, b) => if r = VALIDATED then some b else none
  | none => none

/-- Canonical strings of the validated windows at the `n` positions `i`, `i + 1`,
.., `i + n - 1`, in this order. -/
def matches_from (line : List Char) : Nat → Nat → List (List Char)
  | 0, _ => []
  | n + 1, i => (window_match line i).toList ++ matches_from line n (i + 1)

/-- Positions of `line`, from 0 to its length, at which `format_match` validates the
25-character window with the canonical string `t`. -/
def match_positions (line t : List Char) : List Nat :=
  (List.range (line.length + 1)).filter (fun i => decide (window_match line i = some t))

theorem char_at_window (line : List Char) (i p : Nat) (hp : p < 25) :
    char_at (strncpy_from line i 25) p = char_at line (i + p) := by
  unfold char_at strncpy_from
  simp only [List.getD_eq_getElem?_getD, List.getElem?_take, hp, if_true, List.getElem?_drop]

theorem window_length (line : List Char) (i : Nat) :
    (strncpy_from line i 25).length = min 25 (line.length - i) := by
  unfold strncpy_from
  rw [List.length_take, List.length_drop]

theorem window_match_some (line : List Char) (i : Nat) (b : List Char) :
    window_match line i = some b
      ↔ format_match (strncpy_from line i 25) UTC8601 = some (VALIDATED, b) := by
  unfold window_match
  obtain ⟨⟨r, c⟩, hr⟩ := format_match_defined (strncpy_from line i 25) UTC8601
  rw [hr]
  by_cases h : r = VALIDATED
  · subst h
    simp
  · simp [h]

theorem skip_arith (k : Nat) (h1 : 1 ≤ k) (h2 : k ≤ 19) :
    ∃ j, j < 4 ∧ (k + j = 4 ∨ k + j = 7 ∨ k + j = 10 ∨ k + j = 13 ∨ k + j = 16 ∨ k + j = 19) := by
  interval_cases k
  · exact ⟨3, by decide, by decide⟩
  · exact ⟨2, by decide, by decide⟩
  · exact ⟨1, by decide, by decide⟩
  · exact ⟨0, by decide, by decide⟩
  · exact ⟨2, by decide, by decide⟩
  · exact ⟨1, by decide, by decide⟩
  · exact ⟨0, by decide, by decide⟩
  · exact ⟨2, by decide, by decide⟩
  · exact ⟨1, by decide, by decide⟩
  · exact ⟨0, by decide, by decide⟩
  · exact ⟨2, by decide, by decide⟩
  · exact ⟨1, by decide, by decide⟩
  · exact ⟨0, by decide, by decide⟩
  · exact ⟨2, by decide, by decide⟩
  · exact ⟨1, by decide, by decide⟩
  · exact ⟨0, by decide, by decide⟩
  · exact ⟨2, by decide, by decide⟩
  · exact ⟨1, by decide, by decide⟩
  · exact ⟨0, by decide, by decide⟩

/-- A validated text holds no digit at the positions 4, 7, 10, 13, 16 and 19. -/
theorem validated_non_digits (t b : List Char)
    (h : format_match t UTC8601 = some (VALIDATED, b)) (p : Nat)
    (hp : p = 4 ∨ p = 7 ∨ p = 10 ∨ p = 13 ∨ p = 16 ∨ p = 19) :
    isdigit (char_at t p) = false := by
  obtain ⟨_, _, hsep, _, hcase⟩ := format_match_validated_shape t b h
  obtain ⟨s4, s7, s10, s13, s16⟩ := hsep
  rcases hp with e | e | e | e | e | e
  · rw [e, s4]
    decide
  · rw [e, s7]
    decide
  · rw [e, s10]
    decide
  · rw [e, s13]
    decide
  · rw [e, s16]
    decide
  · rw [e]
    rcases hcase with ⟨hz, _⟩ | ⟨_, hs | hs, _, _⟩
    · rw [hz]
      decide
    · rw [hs]
      decide
    · rw [hs]
      decide

/-- A validated text holds digits at the positions 0 to 3. -/
theorem validated_year_digits (t b : List Char)
    (h : format_match t UTC8601 = some (VALIDATED, b)) (j : Nat) (hj : j < 4) :
    isdigit (char_at t j) = true := by
  obtain ⟨_, _, _, hdig, _⟩ := format_match_validated_shape t b h
  apply hdig
  interval_cases j <;> decide

/-- When the window at `i` is validated, no window at `i + 1`, .., `i + 19` is. -/
theorem window_no_overlap (line : List Char) (i k : Nat) (b : List Char)
    (h : window_match line i = some b) (hk1 : 1 ≤ k) (hk : k ≤ 19) :
    window_match line (i + k) = none := by
  cases h2 : window_match line (i + k) with
  | none => rfl
  | some b2 =>
    exfalso
    rw [window_match_some] at h h2
    obtain ⟨j, hj, hsum⟩ := skip_arith k hk1 hk
    have hd := validated_year_digits _ _ h2 j hj
    have hkj : k + j < 25 := by omega
    have hn := validated_non_digits _ _ h (k + j) hsum
    rw [char_at_window line (i + k) j (by omega)] at hd
    rw [char_at_window line i (k + j) hkj, ← Nat.add_assoc] at hn
    rw [hd] at hn
    exact absurd hn (by decide)

theorem window_match_short (line : List Char) (i : Nat) (h : line.length - i < 20) :
    window_match line i = none := by
  cases h2 : window_match line i with
  | none => rfl
  | some b =>
    exfalso
    rw [window_match_some] at h2
    have h20 := (format_match_validated_shape _ _ h2).1
    rw [window_length] at h20
    omega

theorem matches_from_add (line : List Char) (a : Nat) :
    ∀ (b i : Nat), matches_from line (a + b) i
      = matches_from line a i ++ matches_from line b (i + a) := by
  induction a with
  | zero =>
    intro b i
    simp [matches_from]
  | succ a ih =>
    intro b i
    have e : a + 1 + b = (a + b) + 1 := by omega
    rw [e, matches_from, matches_from, ih b (i + 1), List.append_assoc]
    have e2 : i + 1 + a = i + (a + 1) := by omega
    rw [e2]

theorem matches_from_none (line : List Char) (n : Nat) :
    ∀ i : Nat, (∀ j, j < n → window_match line (i + j) = none) → matches_from line n i = [] := by
  induction n with
  | zero =>
    intro i _
    rfl
  | succ n ih =>
    intro i h
    have h0 : window_match line i = none := h 0 (by omega)
    rw [matches_from, h0, ih (i + 1)]
    · rfl
    · intro j hj
      have := h (j + 1) (by omega)
      rw [← this]
      congr 1
      omega

theorem matches_from_skip (line : List Char) (i n : Nat) (b : List Char)
    (h : window_match line i = some b) :
    matches_from line (n + 20) i = b :: matches_from line n (i + 20) := by
  have e : n + 20 = (19 + n) + 1 := by omega
  rw [e, matches_from, h, matches_from_add line 19 n (i + 1),
    matches_from_none line 19 (i + 1)]
  · have e2 : i + 1 + 19 = i + 20 := by omega
    rw [e2]
    rfl
  · intro j hj
    have := window_no_overlap line i (1 + j) b h (by omega) (by omega)
    rw [← this]
    congr 1
    omega

theorem matches_from_canonical (line : List Char) (n : Nat) :
    ∀ i : Nat, ∀ s ∈ matches_from line n i, canonical s := by
  induction n with
  | zero =>
    intro i s hs
    exact absurd hs (List.not_mem_nil _)
  | succ n ih =>
    intro i s hs
    rw [matches_from, List.mem_append] at hs
    rcases hs with h | h
    · rw [Option.mem_toList, Option.mem_def, window_match_some] at h
      exact format_match_validated_canonical _ _ h
    · exact ih (i + 1) s h

/-! ## Lemmas on the window loop -/

/-- Every record holds a canonical string and a counter of at least 1. -/
def records_ok (l : List dtv_t) : Prop := ∀ e ∈ l, canonical e.dtstr ∧ 1 ≤ e.count

theorem spec_insert_records_ok (b : List Char) (vl : List dtv_t) (hb : canonical b)
    (hvl : records_ok vl) : records_ok (spec_insert b vl) := by
  intro x hx
  rcases mem_spec_insert b vl x hx with h | h | ⟨y, hy, _, h2⟩
  · rw [h]
    exact ⟨hb, le_refl _⟩
  · exact hvl x h
  · rw [h2]
    have := hvl y hy
    exact ⟨this.1, by show 1 ≤ y.count + 1; omega⟩

theorem insert_or_match_records_ok (alloc : Bool) (b : List Char) (vl : List dtv_t)
    (hb : canonical b) (hvl : records_ok vl)
    (hv : (insert_or_match alloc vl b).1 = VALIDATED) :
    records_ok (insert_or_match alloc vl b).2 := by
  have ht : records_ok (insert_or_match true vl b).2 := by
    rw [insert_or_match_eq_spec vl b (canonical_length b hb)]
    exact spec_insert_records_ok b vl hb hvl
  cases alloc with
  | true => exact ht
  | false =>
    rcases insert_or_match_false vl b with h | ⟨h, _⟩
    · rw [h] at hv
      exact absurd hv (by simp)
    · rw [h]
      exact ht

theorem insert_or_match_not_validated (alloc : Bool) (b : List Char) (vl : List dtv_t)
    (hb : b.length ≤ 25) (hv : (insert_or_match alloc vl b).1 ≠ VALIDATED) : alloc = false := by
  cases alloc with
  | false => rfl
  | true =>
    rw [insert_or_match_eq_spec vl b hb] at hv
    exact absurd rfl hv

theorem text_window_loop_full (line : List Char) :
    ∀ (fuel off : Nat) (vl : List dtv_t), off ≤ line.length → line.length - off < fuel →
      ∃ cl, text_window_loop true line true fuel off vl
        = run_t.ok (insert_all vl (matches_from line (line.length + 1 - off) off), cl) := by
  intro fuel
  induction fuel with
  | zero =>
    intro off vl _ hf
    exact absurd hf (Nat.not_lt_zero _)
  | succ fuel ih =>
    intro off vl hoff hf
    obtain ⟨⟨r, b⟩, hr⟩ := format_match_defined (strncpy_from line off 25) UTC8601
    have hnl : ¬ (line.length < off) := by omega
    rw [text_window_loop, text_window_step, if_neg hnl, hr]
    by_cases hv : r = VALIDATED
    · subst hv
      have hm : window_match line off = some b := (window_match_some _ _ _).2 hr
      have hcan := format_match_validated_canonical _ _ hr
      have h20 := (format_match_validated_shape _ _ hr).1
      rw [window_length] at h20
      have hins := insert_or_match_eq_spec vl b (canonical_length b hcan)
      have hne : ¬ ((insert_or_match true vl b).1 ≠ VALIDATED) := by
        rw [hins]
        exact fun h => h rfl
      simp only [if_true]
      rw [if_neg hne]
      obtain ⟨cl, hcl⟩ := ih (off + 20) (insert_or_match true vl b).2 (by omega) (by omega)
      refine ⟨cl, ?_⟩
      dsimp only
      rw [hcl]
      have e : line.length + 1 - off = (line.length + 1 - (off + 20)) + 20 := by omega
      rw [e, matches_from_skip line off _ b hm, insert_all_cons]
    · have hm : window_match line off = none := by
        cases h2 : window_match line off with
        | none => rfl
        | some c =>
          rw [window_match_some, hr] at h2
          exact absurd (Prod.mk.inj (Option.some.inj h2)).1 hv
      simp only [hv, if_false]
      by_cases hstop : (line.length - off < 25 ∧ true = false) ∨ line.length - off < 20
      · rw [if_pos hstop]
        have hlt : line.length - off < 20 := by
          rcases hstop with h | h
          · exact absurd h.2 (by decide)
          · exact h
        refine ⟨b, ?_⟩
        rw [matches_from_none line _ off]
        · rfl
        · intro j _
          exact window_match_short line (off + j) (by omega)
      · rw [if_neg hstop]
        have hge : ¬ (line.length - off < 20) := fun h => hstop (Or.inr h)
        obtain ⟨cl, hcl⟩ := ih (off + 1) vl (by omega) (by omega)
        refine ⟨cl, ?_⟩
        dsimp only
        rw [hcl]
        have e : line.length + 1 - off = (line.length + 1 - (off + 1)) + 1 := by omega
        rw [e, matches_from, hm]
        rfl

theorem text_window_loop_inv (alloc : Bool) (line : List Char) (flr : Bool) :
    ∀ (fuel off : Nat) (vl : List dtv_t), off ≤ line.length → line.length - off < fuel →
      records_ok vl →
      (text_window_loop alloc line flr fuel off vl = run_t.stop stop_t.MEM_ALLOC ∧ alloc = false)
        ∨ ∃ vl2 cl, text_window_loop alloc line flr fuel off vl = run_t.ok (vl2, cl)
            ∧ records_ok vl2 ∧ cl.length ≤ 25 := by
  intro fuel
  induction fuel with
  | zero =>
    intro off vl _ hf
    exact absurd hf (Nat.not_lt_zero _)
  | succ fuel ih =>
    intro off vl hoff hf hvl
    obtain ⟨⟨r, b⟩, hr⟩ := format_match_defined (strncpy_from line off 25) UTC8601
    have hnl : ¬ (line.length < off) := by omega
    have hblen : b.length ≤ 25 := by
      have h1 := format_match_buffer_length _ _ _ hr
      rw [window_length] at h1
      omega
    rw [text_window_loop, text_window_step, if_neg hnl, hr]
    by_cases hv : r = VALIDATED
    · subst hv
      have hcan := format_match_validated_canonical _ _ hr
      have h20 := (format_match_validated_shape _ _ hr).1
      rw [window_length] at h20
      simp only [if_true]
      by_cases hins : (insert_or_match alloc vl b).1 ≠ VALIDATED
      · rw [if_pos hins]
        exact Or.inl ⟨rfl, insert_or_match_not_validated alloc b vl hblen hins⟩
      · rw [if_neg hins]
        have hins2 : (insert_or_match alloc vl b).1 = VALIDATED := by
          by_contra hn
          exact hins hn
        exact ih (off + 20) _ (by omega) (by omega)
          (insert_or_match_records_ok alloc b vl hcan hvl hins2)
    · simp only [hv, if_false]
      by_cases hstop : (line.length - off < 25 ∧ flr = false) ∨ line.length - off < 20
      · rw [if_pos hstop]
        exact Or.inr ⟨vl, b, rfl, hvl, hblen⟩
      · rw [if_neg hstop]
        have hge : ¬ (line.length - off < 20) := fun h => hstop (Or.inr h)
        exact ih (off + 1) vl (by omega) (by omega) hvl

/-! ## Lemmas on the read loop -/

theorem main_loop_succ (alloc : Bool) (parse_form : Int) (fuel : Nat) (stream : List Char)
    (st : scan_state) :
    main_loop alloc parse_form (fuel + 1) stream st =
      match fgets (if st.full_line_read then MAX_LINE_LEN else st.line_fill_amount) stream with
      | none => run_t.ok st.valid_list
      | some (chunk, rest) =>
        match process_chunk alloc parse_form st.full_line_read
            (if st.full_line_read then MAX_LINE_LEN else st.line_fill_amount)
            (buffer_store st.line
              (MAX_LINE_LEN - (if st.full_line_read then MAX_LINE_LEN else st.line_fill_amount))
              chunk) st.valid_list with
        | run_t.stop why => run_t.stop why
        | run_t.ok st2 => main_loop alloc parse_form fuel rest st2 := by
  rfl

theorem read_chunk_line (line rest : List Char) (hnl : '\n' ∉ line) :
    ∀ k, line.length < k → read_chunk k (line ++ '\n' :: rest) = (line ++ ['\n'], rest) := by
  induction line with
  | nil =>
    intro k hk
    cases k with
    | zero => exact absurd hk (Nat.not_lt_zero _)
    | succ k => simp [read_chunk]
  | cons c cs ih =>
    intro k hk
    cases k with
    | zero => exact absurd hk (Nat.not_lt_zero _)
    | succ k =>
      have hc : c ≠ '\n' := fun e => hnl (e ▸ List.mem_cons_self _ _)
      have hcs : '\n' ∉ cs := fun h => hnl (List.mem_cons_of_mem _ h)
      have hk2 : cs.length < k := by
        simp only [List.length_cons] at hk
        omega
      show read_chunk (k + 1) (c :: (cs ++ '\n' :: rest)) = _
      rw [read_chunk, if_neg hc, ih hcs k hk2]
      rfl

theorem read_chunk_length (k : Nat) :
    ∀ s : List Char, (read_chunk k s).2.length ≤ s.length := by
  induction k with
  | zero =>
    intro s
    simp [read_chunk]
  | succ k ih =>
    intro s
    cases s with
    | nil => simp [read_chunk]
    | cons c cs =>
      by_cases hc : c = '\n'
      · simp [read_chunk, hc]
      · simp only [read_chunk, hc, if_false, List.length_cons]
        have := ih cs
        omega

theorem read_chunk_progress (k : Nat) (c : Char) (cs : List Char) :
    (read_chunk (k + 1) (c :: cs)).1 ≠ []
      ∧ (read_chunk (k + 1) (c :: cs)).2.length < (c :: cs).length := by
  by_cases hc : c = '\n'
  · simp [read_chunk, hc]
  · simp only [read_chunk, hc, if_false, List.length_cons]
    have := read_chunk_length k cs
    exact ⟨List.cons_ne_nil _ _, by omega⟩

theorem fgets_progress (n : Nat) (stream chunk rest : List Char) (hn : 2 ≤ n)
    (h : fgets n stream = some (chunk, rest)) : chunk ≠ [] ∧ rest.length < stream.length := by
  cases stream with
  | nil => simp [fgets] at h
  | cons c cs =>
    obtain ⟨k, hk⟩ : ∃ k, n - 1 = k + 1 := ⟨n - 2, by omega⟩
    simp only [fgets, hk, Option.some.injEq] at h
    have hp := read_chunk_progress k c cs
    rw [h] at hp
    exact hp

theorem fgets_line (line rest : List Char) (hnl : '\n' ∉ line) (hlen : line.length ≤ 498) :
    fgets MAX_LINE_LEN (line ++ '\n' :: rest) = some (line ++ ['\n'], rest) := by
  have h := read_chunk_line line rest hnl (MAX_LINE_LEN - 1) (by
    have : MAX_LINE_LEN - 1 = 499 := by decide
    omega)
  cases hl : line ++ '\n' :: rest with
  | nil => simp at hl
  | cons c cs =>
    rw [hl] at h
    simp only [fgets, h]

theorem process_chunk_line_text (alloc : Bool) (lri : Bool) (fill : Nat) (line : List Char)
    (vl : List dtv_t) :
    process_chunk alloc TEXT_FORM lri fill (line ++ ['\n']) vl =
      match text_window_loop alloc line true (line.length + 1) 0 vl with
      | run_t.stop why => run_t.stop why
      | run_t.ok (vl2, _) => run_t.ok ⟨line, fill, true, vl2⟩ := by
  unfold process_chunk
  have hf : ¬ (TEXT_FORM = TABLE_FORM) := by decide
  rw [List.getLast?_concat]
  simp only [decide_True, if_true, List.dropLast_concat, hf, if_false, Bool.true_eq_false]

theorem process_chunk_line_table (alloc : Bool) (lri : Bool) (fill : Nat) (line : List Char)
    (vl : List dtv_t) :
    process_chunk alloc TABLE_FORM lri fill (line ++ ['\n']) vl =
      match table_case alloc lri line vl with
      | run_t.stop why => run_t.stop why
      | run_t.ok (line2, vl2) => run_t.ok ⟨line2, fill, true, vl2⟩ := by
  unfold process_chunk
  rw [List.getLast?_concat]
  simp only [decide_True, if_true, List.dropLast_concat]

theorem main_loop_end (alloc : Bool) (parse_form : Int) (fuel : Nat) (st : scan_state) :
    main_loop alloc parse_form (fuel + 1) [] st = run_t.ok st.valid_list := by
  rw [main_loop_succ]
  rfl

theorem buffer_store_start (line chunk : List Char) : buffer_store line 0 chunk = chunk := by
  simp [buffer_store]

theorem main_loop_text_line (line rest : List Char) (hnl : '\n' ∉ line)
    (hlen : line.length ≤ 498) (fuel : Nat) (st : scan_state) (hst : st.full_line_read = true) :
    main_loop true TEXT_FORM (fuel + 1) (line ++ '\n' :: rest) st
      = main_loop true TEXT_FORM fuel rest
          ⟨line, MAX_LINE_LEN, true,
            insert_all st.valid_list (matches_from line (line.length + 1) 0)⟩ := by
  obtain ⟨cl, hcl⟩ := text_window_loop_full line (line.length + 1) 0 st.valid_list
    (Nat.zero_le _) (by omega)
  rw [main_loop_succ, hst]
  simp only [if_true, Nat.sub_self, buffer_store_start, fgets_line line rest hnl hlen,
    process_chunk_line_text, hcl]
  rfl

theorem count_toList (o : Option (List Char)) (t : List Char) :
    o.toList.count t = if o = some t then 1 else 0 := by
  cases o with
  | none => simp
  | some b =>
    by_cases h : b = t
    · subst h
      simp
    · rw [Option.toList, if_neg (fun e => h (Option.some.inj e)), List.count_eq_zero]
      intro hm
      exact h (List.mem_singleton.1 hm).symm

theorem count_matches_from (line t : List Char) (n : Nat) :
    ∀ i : Nat, (matches_from line n i).count t
      = ((List.range n).filter (fun j => decide (window_match line (i + j) = some t))).length := by
  induction n with
  | zero =>
    intro i
    rfl
  | succ n ih =>
    intro i
    have hfun : ((fun j => decide (window_match line (i + j) = some t)) ∘ Nat.succ)
        = (fun j => decide (window_match line (i + 1 + j) = some t)) := by
      funext j
      simp only [Function.comp]
      have e : i + j.succ = i + 1 + j := by omega
      rw [e]
    rw [matches_from, List.count_append, count_toList, ih (i + 1), List.range_succ_eq_map,
      List.filter_cons, List.filter_map, hfun]
    by_cases h : window_match line i = some t
    · have h0 : decide (window_match line (i + 0) = some t) = true := by simpa using h
      rw [if_pos h, if_pos h0, List.length_cons, List.length_map]
      omega
    · have h0 : ¬ (decide (window_match line (i + 0) = some t) = true) := by simpa using h
      rw [if_neg h, if_neg h0, List.length_map]
      omega

theorem count_match_positions (line t : List Char) :
    (matches_from line (line.length + 1) 0).count t = (match_positions line t).length := by
  rw [count_matches_from]
  unfold match_positions
  simp only [Nat.zero_add]

/-! ## Claims on the text-mode scan -/

/-- C15: for every line of text that ends at a line boundary and fits in one read, the
text-mode scan of that line from the empty collection returns a collection in
ascending order in which, for every string `t`, the count of `t` is the number of
positions of the line at which `format_match` validates the 25-character window
with canonical string `t`; every record has such a position (its count is at
least 1). The line `see 2024-01-15T10:30:00Z and again 2024-01-15T10:30:00Z here`
yields one record with count 2. -/
theorem text_scan_single_line (line : List Char) (hnl : '\n' ∉ line)
    (hlen : line.length ≤ 498) :
    ∃ vl, scan true TEXT_FORM (line ++ ['\n']) = run_t.ok vl
      ∧ ascending vl
      ∧ (∀ t, count_of vl t = ((match_positions line t).length : Int))
      ∧ (∀ e ∈ vl, e.count = ((match_positions line e.dtstr).length : Int) ∧ 1 ≤ e.count)
      ∧ scan true TEXT_FORM
          "see 2024-01-15T10:30:00Z and again 2024-01-15T10:30:00Z here\n".toList
          = run_t.ok [⟨"2024-01-15T10:30:00Z".toList, 2⟩] := by
  have hseq : ∀ s ∈ matches_from line (line.length + 1) 0, s.length ≤ 25 :=
    fun s hs => canonical_length s (matches_from_canonical line _ 0 s hs)
  have hasc : ascending (insert_all [] (matches_from line (line.length + 1) 0)) :=
    insert_all_ascending _ hseq [] List.Pairwise.nil
  have hpos : counts_positive (insert_all [] (matches_from line (line.length + 1) 0)) :=
    insert_all_counts_positive _ hseq [] (fun e he => absurd he (List.not_mem_nil _))
  have hcnt : ∀ t, count_of (insert_all [] (matches_from line (line.length + 1) 0)) t
      = ((match_positions line t).length : Int) := by
    intro t
    rw [count_of_insert_all _ hseq t [], count_of_nil, zero_add, count_match_positions]
  refine ⟨insert_all [] (matches_from line (line.length + 1) 0), ?_, hasc, hcnt, ?_, by decide⟩
  · unfold scan
    have e : (line ++ ['\n']).length + 1 = (line.length + 1) + 1 := by
      rw [List.length_append]
      rfl
    rw [e, main_loop_text_line line [] hnl hlen (line.length + 1) scan_init rfl, main_loop_end]
    rfl
  · intro e he
    refine ⟨?_, hpos e he⟩
    rw [← hcnt, count_of_mem_ascending _ e hasc he]

/-- Witness of C15 at the line `see 2024-01-15T10:30:00Z and again
2024-01-15T10:30:00Z here`. -/
theorem text_scan_single_line_witness :
    match_positions "see 2024-01-15T10:30:00Z and again 2024-01-15T10:30:00Z here".toList
        "2024-01-15T10:30:00Z".toList = [4, 35]
    ∧ ∃ vl, scan true TEXT_FORM
          ("see 2024-01-15T10:30:00Z and again 2024-01-15T10:30:00Z here".toList ++ ['\n'])
          = run_t.ok vl
        ∧ count_of vl "2024-01-15T10:30:00Z".toList = 2 :=
  ⟨by decide, by
    obtain ⟨vl, h1, _, h3, _⟩ := text_scan_single_line
      "see 2024-01-15T10:30:00Z and again 2024-01-15T10:30:00Z here".toList
      (by decide) (by decide)
    refine ⟨vl, h1, ?_⟩
    rw [h3]
    decide⟩

/-- State invariant of the read loop: after a chunk that did not end its line, the
fill amount is the capacity (outside text mode), or the buffer holds a carry-over
of at most 25 characters and the fill amount is the room behind it (text mode). -/
def state_ok (parse_form : Int) (st : scan_state) : Prop :=
  st.full_line_read = true
    ∨ (parse_form ≠ TEXT_FORM ∧ st.line_fill_amount = MAX_LINE_LEN)
    ∨ (parse_form = TEXT_FORM ∧ st.line.length ≤ 25
        ∧ st.line_fill_amount = MAX_LINE_LEN - st.line.length)

theorem table_case_inv (alloc : Bool) (lri : Bool) (line : List Char) (vl : List dtv_t)
    (hvl : records_ok vl) :
    (table_case alloc lri line vl = run_t.stop stop_t.MEM_ALLOC ∧ alloc = false)
      ∨ ∃ line2 vl2, table_case alloc lri line vl = run_t.ok (line2, vl2) ∧ records_ok vl2 := by
  unfold table_case
  by_cases hl : lri = false
  · rw [if_pos hl]
    exact Or.inr ⟨line, vl, rfl, hvl⟩
  · rw [if_neg hl]
    obtain ⟨⟨r, b⟩, hr⟩ := format_match_defined line UTC8601
    rw [hr]
    by_cases hv : r = VALIDATED
    · subst hv
      have hcan := format_match_validated_canonical _ _ hr
      simp only [if_true]
      by_cases hins : (insert_or_match alloc vl b).1 ≠ VALIDATED
      · rw [if_pos hins]
        exact Or.inl ⟨rfl, insert_or_match_not_validated alloc b vl (canonical_length b hcan) hins⟩
      · rw [if_neg hins]
        have hins2 : (insert_or_match alloc vl b).1 = VALIDATED := by
          by_contra hn
          exact hins hn
        exact Or.inr ⟨b, _, rfl, insert_or_match_records_ok alloc b vl hcan hvl hins2⟩
    · simp only [hv, if_false]
      exact Or.inr ⟨b, vl, rfl, hvl⟩

theorem process_chunk_inv (alloc : Bool) (parse_form : Int) (lri : Bool) (fill : Nat)
    (line : List Char) (vl : List dtv_t) (hline : line ≠ []) (hvl : records_ok vl)
    (hfill : parse_form ≠ TEXT_FORM → fill = MAX_LINE_LEN) :
    (process_chunk alloc parse_form lri fill line vl = run_t.stop stop_t.MEM_ALLOC
        ∧ alloc = false)
      ∨ ∃ st2, process_chunk alloc parse_form lri fill line vl = run_t.ok st2
          ∧ records_ok st2.valid_list ∧ state_ok parse_form st2 := by
  unfold process_chunk
  cases hlast : line.getLast? with
  | none => exact absurd (List.getLast?_eq_none_iff.1 hlast) hline
  | some last =>
    dsimp only
    by_cases htab : parse_form = TABLE_FORM
    · rw [if_pos htab]
      have hnt : parse_form ≠ TEXT_FORM := by
        rw [htab]
        decide
      rcases table_case_inv alloc lri (if last = '\n' then line.dropLast else line) vl hvl
        with ⟨h1, h2⟩ | ⟨line2, vl2, h1, h2⟩
      · rw [h1]
        exact Or.inl ⟨rfl, h2⟩
      · rw [h1]
        exact Or.inr ⟨_, rfl, h2, Or.inr (Or.inl ⟨hnt, hfill hnt⟩)⟩
    · rw [if_neg htab]
      by_cases htxt : parse_form = TEXT_FORM
      · rw [if_pos htxt]
        rcases text_window_loop_inv alloc (if last = '\n' then line.dropLast else line)
          (decide (last = '\n')) ((if last = '\n' then line.dropLast else line).length + 1) 0 vl
          (Nat.zero_le _) (by omega) hvl with ⟨h1, h2⟩ | ⟨vl2, cl, h1, h2, h3⟩
        · rw [h1]
          exact Or.inl ⟨rfl, h2⟩
        · rw [h1]
          dsimp only
          by_cases hflr : decide (last = '\n') = false
          · rw [if_pos hflr]
            exact Or.inr ⟨_, rfl, h2, Or.inr (Or.inr ⟨htxt, h3, rfl⟩)⟩
          · rw [if_neg hflr]
            refine Or.inr ⟨_, rfl, h2, Or.inl ?_⟩
            cases hd : decide (last = '\n')
            · exact absurd hd hflr
            · rfl
      · rw [if_neg htxt]
        exact Or.inr ⟨_, rfl, hvl, Or.inr (Or.inl ⟨htxt, hfill htxt⟩)⟩

theorem main_loop_inv (alloc : Bool) (parse_form : Int) :
    ∀ (fuel : Nat) (stream : List Char) (st : scan_state), stream.length < fuel →
      state_ok parse_form st → records_ok st.valid_list →
      (main_loop alloc parse_form fuel stream st = run_t.stop stop_t.MEM_ALLOC ∧ alloc = false)
        ∨ ∃ vl, main_loop alloc parse_form fuel stream st = run_t.ok vl ∧ records_ok vl := by
  intro fuel
  induction fuel with
  | zero =>
    intro stream st hf _ _
    exact absurd hf (Nat.not_lt_zero _)
  | succ fuel ih =>
    intro stream st hf hst hvl
    rw [main_loop_succ]
    have hmax : MAX_LINE_LEN = 500 := rfl
    have hfill2 : 2 ≤ (if st.full_line_read then MAX_LINE_LEN else st.line_fill_amount) := by
      rcases hst with h | ⟨_, h⟩ | ⟨_, h1, h2⟩
      · rw [if_pos h]
        decide
      · split_ifs <;> omega
      · split_ifs <;> omega
    have hpos : MAX_LINE_LEN - (if st.full_line_read then MAX_LINE_LEN else st.line_fill_amount)
        ≤ st.line.length := by
      rcases hst with h | ⟨_, h⟩ | ⟨_, h1, h2⟩
      · rw [if_pos h]
        omega
      · split_ifs <;> omega
      · split_ifs <;> omega
    have hfill : parse_form ≠ TEXT_FORM →
        (if st.full_line_read then MAX_LINE_LEN else st.line_fill_amount) = MAX_LINE_LEN := by
      intro hnt
      rcases hst with h | ⟨_, h⟩ | ⟨h, _, _⟩
      · rw [if_pos h]
      · split_ifs
        · rfl
        · exact h
      · exact absurd h hnt
    cases hget : fgets (if st.full_line_read then MAX_LINE_LEN else st.line_fill_amount) stream with
    | none => exact Or.inr ⟨st.valid_list, rfl, hvl⟩
    | some cr =>
      obtain ⟨chunk, rest⟩ := cr
      obtain ⟨hchunk, hrest⟩ := fgets_progress _ stream chunk rest hfill2 hget
      have hline : buffer_store st.line
          (MAX_LINE_LEN - (if st.full_line_read then MAX_LINE_LEN else st.line_fill_amount)) chunk
          ≠ [] := by
        unfold buffer_store
        rw [if_pos hpos]
        intro h
        exact hchunk (List.append_eq_nil.1 h).2
      dsimp only
      rcases process_chunk_inv alloc parse_form st.full_line_read _ _ st.valid_list hline hvl hfill
        with ⟨h1, h2⟩ | ⟨st2, h1, h2, h3⟩
      · rw [h1]
        exact Or.inl ⟨rfl, h2⟩
      · rw [h1]
        exact ih rest st2 (by omega) h3 h2

theorem char_at_append_right (p ts : List Char) (j : Nat) :
    char_at (p ++ ts) (p.length + j) = char_at ts j := by
  unfold char_at
  simp only [List.getD_eq_getElem?_getD]
  rw [List.getElem?_append_right (Nat.le_add_right _ _), Nat.add_sub_cancel_left]

/-- A validated text with characters put before it is not validated. -/
theorem format_match_prefixed (p ts b b2 : List Char) (hp : p ≠ [])
    (h : format_match ts UTC8601 = some (VALIDATED, b)) :
    format_match (p ++ ts) UTC8601 ≠ some (VALIDATED, b2) := by
  intro h2
  obtain ⟨h20, _, _, hdig, _⟩ := format_match_validated_shape ts b h
  obtain ⟨_, h25, hsep, _, _⟩ := format_match_validated_shape (p ++ ts) b2 h2
  rw [List.length_append] at h25
  have hp1 : 1 ≤ p.length := by
    cases p with
    | nil => exact absurd rfl hp
    | cons c cs => simp
  obtain ⟨s4, s7, _, _, _⟩ := hsep
  by_cases hk : p.length ≤ 4
  · have e : 4 = p.length + (4 - p.length) := by omega
    rw [e, char_at_append_right] at s4
    have hd : isdigit (char_at ts (4 - p.length)) = true := by
      apply hdig
      have h3 : 4 - p.length ≤ 3 := by omega
      interval_cases (4 - p.length) <;> decide
    rw [s4] at hd
    exact absurd hd (by decide)
  · have e : 7 = p.length + 2 := by omega
    rw [e, char_at_append_right] at s7
    have hd : isdigit (char_at ts 2) = true := hdig 2 (by decide)
    rw [s7] at hd
    exact absurd hd (by decide)

/-! ## Lemmas for runs over long lines -/

theorem char_at_replicate_append (n : Nat) (c : Char) (rest : List Char) (i : Nat)
    (h : i < n) : char_at (List.replicate n c ++ rest) i = c := by
  unfold char_at
  rw [List.getD_eq_getElem?_getD, List.getElem?_append_left (by simpa using h),
    List.getElem?_replicate, if_pos h]
  rfl

theorem window_match_none_of_separator (line : List Char) (i : Nat)
    (h : char_at line (i + 4) ≠ '-') : window_match line i = none := by
  have hbad : ¬ (20 ≤ (strncpy_from line i 25).length ∧ (strncpy_from line i 25).length ≤ 25
      ∧ separators_ok (strncpy_from line i 25)) := by
    intro hs
    have h4 := hs.2.2.1
    rw [char_at_window line i 4 (by decide)] at h4
    exact h h4
  unfold window_match
  rw [format_match_bad_shape _ hbad]
  rfl

theorem text_window_step_none (alloc : Bool) (line : List Char) (flr : Bool) (off : Nat)
    (vl : List dtv_t) (hm : window_match line off = none) (h25 : off + 25 ≤ line.length) :
    text_window_step alloc line flr off vl = window_step_t.next (off + 1) vl := by
  obtain ⟨⟨r, b⟩, hr⟩ := format_match_defined (strncpy_from line off 25) UTC8601
  have hv : ¬ r = VALIDATED := by
    intro hv
    subst hv
    rw [(window_match_some line off b).2 hr] at hm
    exact absurd hm (by simp)
  have hnl : ¬ (line.length < off) := by omega
  have hstop : ¬ ((line.length - off < 25 ∧ flr = false) ∨ line.length - off < 20) := by omega
  rw [text_window_step, if_neg hnl, hr]
  simp only [hv, if_false]
  rw [if_neg hstop]

theorem text_window_loop_skip (alloc : Bool) (line : List Char) (flr : Bool) (fuel : Nat)
    (vl : List dtv_t) :
    ∀ (k off : Nat), (∀ j, j < k → window_match line (off + j) = none) →
      off + k + 24 ≤ line.length →
      text_window_loop alloc line flr (fuel + k) off vl
        = text_window_loop alloc line flr fuel (off + k) vl := by
  intro k
  induction k with
  | zero =>
    intro off _ _
    rfl
  | succ k ih =>
    intro off hm hlen
    have h0 : window_match line off = none := hm 0 (by omega)
    have e : fuel + (k + 1) = (fuel + k) + 1 := by omega
    rw [e, text_window_loop, text_window_step_none alloc line flr off vl h0 (by omega)]
    dsimp only
    rw [ih (off + 1) (fun j hj => by
      have := hm (j + 1) (by omega)
      rw [← this]
      congr 1
      omega) (by omega)]
    congr 1
    omega

theorem text_window_loop_filler (alloc : Bool) (n : Nat) (c : Char) (rest : List Char)
    (flr : Bool) (fuel : Nat) (vl : List dtv_t) (hc : c ≠ '-') (k : Nat) (hk : k + 4 ≤ n)
    (hlen : k + 24 ≤ (List.replicate n c ++ rest).length) :
    text_window_loop alloc (List.replicate n c ++ rest) flr (fuel + k) 0 vl
      = text_window_loop alloc (List.replicate n c ++ rest) flr fuel k vl := by
  have h := text_window_loop_skip alloc (List.replicate n c ++ rest) flr fuel vl k 0
    (fun j hj => by
      apply window_match_none_of_separator
      rw [char_at_replicate_append n c rest _ (by omega)]
      exact hc) (by omega)
  rw [h, Nat.zero_add]

theorem process_chunk_partial_text (alloc : Bool) (lri : Bool) (fill : Nat)
    (line : List Char) (last : Char) (vl vl2 : List dtv_t) (cl : List Char)
    (hlast : line.getLast? = some last) (hnl : last ≠ '\n')
    (hloop : text_window_loop alloc line false (line.length + 1) 0 vl = run_t.ok (vl2, cl)) :
    process_chunk alloc TEXT_FORM lri fill line vl
      = run_t.ok ⟨cl, MAX_LINE_LEN - cl.length, false, vl2⟩ := by
  have hf : ¬ (TEXT_FORM = TABLE_FORM) := by decide
  unfold process_chunk
  rw [hlast]
  simp only [hnl, if_false, hf, if_true, decide_False, hloop]

/-- A step of the window loop with its cursor moved by `n`. -/
def shift_step (n : Nat) : window_step_t → window_step_t
  | window_step_t.next offset valid_list => window_step_t.next (n + offset) valid_list
  | window_step_t.done valid_list clean_line => window_step_t.done valid_list clean_line
  | window_step_t.stop why => window_step_t.stop why

theorem text_window_step_shift (alloc : Bool) (pre l : List Char) (flr : Bool) (off : Nat)
    (vl : List dtv_t) :
    text_window_step alloc (pre ++ l) flr (pre.length + off) vl
      = shift_step pre.length (text_window_step alloc l flr off vl) := by
  have hw : strncpy_from (pre ++ l) (pre.length + off) 25 = strncpy_from l off 25 := by
    unfold strncpy_from
    rw [List.drop_append]
  have hlen : (pre ++ l).length - (pre.length + off) = l.length - off := by
    rw [List.length_append]
    omega
  have hlt : ((pre ++ l).length < pre.length + off) ↔ (l.length < off) := by
    rw [List.length_append]
    omega
  unfold text_window_step
  rw [hw, hlen]
  by_cases hnl : l.length < off
  · rw [if_pos hnl, if_pos (hlt.2 hnl)]
    rfl
  · rw [if_neg hnl, if_neg (fun h => hnl (hlt.1 h))]
    obtain ⟨⟨r, b⟩, hr⟩ := format_match_defined (strncpy_from l off 25) UTC8601
    rw [hr]
    dsimp only
    split_ifs <;> rfl

theorem text_window_loop_shift (alloc : Bool) (pre l : List Char) (flr : Bool) :
    ∀ (fuel off : Nat) (vl : List dtv_t),
      text_window_loop alloc (pre ++ l) flr fuel (pre.length + off) vl
        = text_window_loop alloc l flr fuel off vl := by
  intro fuel
  induction fuel with
  | zero =>
    intro off vl
    rfl
  | succ fuel ih =>
    intro off vl
    rw [text_window_loop, text_window_loop, text_window_step_shift]
    cases text_window_step alloc l flr off vl with
    | next o v => exact ih o v
    | done v c => rfl
    | stop w => rfl

theorem text_window_loop_drop_filler (alloc : Bool) (n : Nat) (c : Char) (rest : List Char)
    (flr : Bool) (fuel : Nat) (vl : List dtv_t) (hc : c ≠ '-') (k : Nat) (hk : k + 4 ≤ n)
    (hlen : k + 24 ≤ n + rest.length) :
    text_window_loop alloc (List.replicate n c ++ rest) flr (fuel + k) 0 vl
      = text_window_loop alloc (List.replicate (n - k) c ++ rest) flr fuel 0 vl := by
  rw [text_window_loop_filler alloc n c rest flr fuel vl hc k hk (by
    rw [List.length_append, List.length_replicate]
    exact hlen)]
  have e : List.replicate n c ++ rest
      = List.replicate k c ++ (List.replicate (n - k) c ++ rest) := by
    rw [← List.append_assoc, List.append_replicate_replicate]
    congr 2
    omega
  have h := text_window_loop_shift alloc (List.replicate k c)
    (List.replicate (n - k) c ++ rest) flr fuel 0 vl
  rw [List.length_replicate, Nat.add_zero] at h
  rw [e, h]

theorem scan_first_chunk (alloc : Bool) (parse_form : Int) (stream chunk rest : List Char)
    (n : Nat) (st : scan_state) (hlen : stream.length = n)
    (hget : fgets MAX_LINE_LEN stream = some (chunk, rest))
    (hchunk : process_chunk alloc parse_form true MAX_LINE_LEN chunk [] = run_t.ok st) :
    scan alloc parse_form stream = main_loop alloc parse_form n rest st := by
  unfold scan
  rw [hlen, main_loop_succ]
  have hinit : scan_init.full_line_read = true := rfl
  have hinit2 : scan_init.valid_list = [] := rfl
  simp only [hinit, if_true, hget, Nat.sub_self, buffer_store_start, hinit2, hchunk]

/-! ## Claims on the scanner -/

/-- C16: evaluation at a line of 515 characters read as two chunks: 475 times `x`,
then `2024-13-15T10:30:00Z` (month 13) directly followed by
`2024-01-15T10:30:00Z`. The first read stores 499 characters, ending in `Z2024`.
The window loop stops at offset 475 on the 24-character window
`2024-13-15T10:30:00Z2024`, which `format_match` rejects with INVALID_MONTH after
it has cut `clean_line` behind the Z; the carry-over is copied from `clean_line`,
so the characters `2024` are lost and the run reports no record, while the scan
of the undivided line records `2024-01-15T10:30:00Z` once. -/
theorem text_scan_split_line :
    fgets MAX_LINE_LEN
        (List.replicate 475 'x' ++ "2024-13-15T10:30:00Z2024-01-15T10:30:00Z\n".toList)
      = some (List.replicate 475 'x' ++ "2024-13-15T10:30:00Z2024".toList,
          "-01-15T10:30:00Z\n".toList)
    ∧ format_match "2024-13-15T10:30:00Z2024".toList UTC8601
      = some (INVALID_MONTH, "2024-13-15T10:30:00Z".toList)
    ∧ process_chunk true TEXT_FORM true MAX_LINE_LEN
        (List.replicate 475 'x' ++ "2024-13-15T10:30:00Z2024".toList) []
      = run_t.ok ⟨"2024-13-15T10:30:00Z".toList, 480, false, []⟩
    ∧ scan true TEXT_FORM
        (List.replicate 475 'x' ++ "2024-13-15T10:30:00Z2024-01-15T10:30:00Z\n".toList)
      = run_t.ok []
    ∧ text_window_loop true
        (List.replicate 475 'x' ++ "2024-13-15T10:30:00Z2024-01-15T10:30:00Z".toList) true
        516 0 []
      = run_t.ok ([⟨"2024-01-15T10:30:00Z".toList, 1⟩], []) := by
  have hx : 'x' ≠ '-' := by decide
  have hget : fgets MAX_LINE_LEN
        (List.replicate 475 'x' ++ "2024-13-15T10:30:00Z2024-01-15T10:30:00Z\n".toList)
      = some (List.replicate 475 'x' ++ "2024-13-15T10:30:00Z2024".toList,
          "-01-15T10:30:00Z\n".toList) := by
    decide!
  have hloop1 : text_window_loop true
        (List.replicate 475 'x' ++ "2024-13-15T10:30:00Z2024".toList) false 500 0 []
      = run_t.ok ([], "2024-13-15T10:30:00Z".toList) := by
    rw [show (500 : Nat) = 29 + 471 from rfl,
      text_window_loop_drop_filler true 475 'x' _ false 29 [] hx 471 (by decide) (by decide)]
    decide
  have hchunk : process_chunk true TEXT_FORM true MAX_LINE_LEN
        (List.replicate 475 'x' ++ "2024-13-15T10:30:00Z2024".toList) []
      = run_t.ok ⟨"2024-13-15T10:30:00Z".toList, 480, false, []⟩ := by
    have hlast : (List.replicate 475 'x' ++ "2024-13-15T10:30:00Z2024".toList).getLast?
        = some '4' := by
      decide!
    have hlen : (List.replicate 475 'x' ++ "2024-13-15T10:30:00Z2024".toList).length + 1
        = 500 := by
      decide!
    have h4 : '4' ≠ '\n' := by decide
    have h := process_chunk_partial_text true true MAX_LINE_LEN _ '4' [] []
      "2024-13-15T10:30:00Z".toList hlast h4 (by rw [hlen]; exact hloop1)
    rw [h]
    rfl
  have hloop2 : text_window_loop true
        (List.replicate 475 'x' ++ "2024-13-15T10:30:00Z2024-01-15T10:30:00Z".toList) true
        516 0 []
      = run_t.ok ([⟨"2024-01-15T10:30:00Z".toList, 1⟩], []) := by
    rw [show (516 : Nat) = 45 + 471 from rfl,
      text_window_loop_drop_filler true 475 'x' _ true 45 [] hx 471 (by decide) (by decide)]
    decide
  refine ⟨hget, by decide, hchunk, ?_, hloop2⟩
  have hlen : (List.replicate 475 'x'
      ++ "2024-13-15T10:30:00Z2024-01-15T10:30:00Z\n".toList).length = 516 := by
    decide!
  rw [scan_first_chunk true TEXT_FORM _ _ _ 516 _ hlen hget hchunk]
  decide

/-- C17: evaluation at the stream `x2024-01-15T10:30:00Z`, whose only line has no
terminator. The window at position 1 is a valid timestamp, but the window loop
stops at offset 0 because fewer than 25 characters remain in a chunk that did not
end its line; the 21 characters are carried over for a read that never comes,
and the run reports no record. With a terminator the timestamp is recorded. -/
theorem text_scan_unterminated :
    window_match "x2024-01-15T10:30:00Z".toList 1 = some "2024-01-15T10:30:00Z".toList
    ∧ process_chunk true TEXT_FORM true MAX_LINE_LEN "x2024-01-15T10:30:00Z".toList []
      = run_t.ok ⟨"x2024-01-15T10:30:00Z".toList, 479, false, []⟩
    ∧ scan true TEXT_FORM "x2024-01-15T10:30:00Z".toList = run_t.ok []
    ∧ scan true TEXT_FORM "x2024-01-15T10:30:00Z\n".toList
      = run_t.ok [⟨"2024-01-15T10:30:00Z".toList, 1⟩] := by
  decide

/-- C18: in table mode, for every line that ends at a line boundary and fits in one
read, read when the previous chunk ended its line, the pass through the loop body
gives the line without its terminator to `format_match` once: when the outcome
is VALIDATED with the buffer `b` left, the collection becomes that of
`insert_or_match(collection, b)`, otherwise the collection is unchanged; and a
validated text with characters put before it is not validated. -/
theorem table_scan_line (line rest : List Char) (hnl : '\n' ∉ line) (hlen : line.length ≤ 498)
    (fuel : Nat) (st : scan_state) (hst : st.full_line_read = true) :
    (∃ st2, main_loop true TABLE_FORM (fuel + 1) (line ++ '\n' :: rest) st
          = main_loop true TABLE_FORM fuel rest st2
        ∧ st2.full_line_read = true
        ∧ ((∃ b, format_match line UTC8601 = some (VALIDATED, b)
              ∧ st2.valid_list = (insert_or_match true st.valid_list b).2)
          ∨ ((∀ b, format_match line UTC8601 ≠ some (VALIDATED, b))
              ∧ st2.valid_list = st.valid_list)))
    ∧ (∀ p ts b b2 : List Char, p ≠ [] → format_match ts UTC8601 = some (VALIDATED, b) →
        format_match (p ++ ts) UTC8601 ≠ some (VALIDATED, b2)) := by
  refine ⟨?_, fun p ts b b2 hp h => format_match_prefixed p ts b b2 hp h⟩
  obtain ⟨⟨r, b⟩, hr⟩ := format_match_defined line UTC8601
  rw [main_loop_succ, hst]
  simp only [if_true, Nat.sub_self, buffer_store_start, fgets_line line rest hnl hlen,
    process_chunk_line_table]
  have hne : ¬ (true = false) := by decide
  unfold table_case
  rw [if_neg hne, hr]
  by_cases hv : r = VALIDATED
  · subst hv
    have hcan := format_match_validated_canonical _ _ hr
    have hins := insert_or_match_eq_spec st.valid_list b (canonical_length b hcan)
    have hne2 : ¬ ((insert_or_match true st.valid_list b).1 ≠ VALIDATED) := by
      rw [hins]
      exact fun h => h rfl
    simp only [if_true]
    rw [if_neg hne2]
    exact ⟨_, rfl, rfl, Or.inl ⟨b, rfl, rfl⟩⟩
  · simp only [hv, if_false]
    refine ⟨_, rfl, rfl, Or.inr ⟨?_, rfl⟩⟩
    intro b2 h2
    exact hv (Prod.mk.inj (Option.some.inj h2)).1

/-- Witness of C18 at the line `2024-01-15T10:30:00Z`, with x before it in the rest. -/
theorem table_scan_line_witness :
    ('\n' ∉ "2024-01-15T10:30:00Z".toList)
    ∧ scan true TABLE_FORM "2024-01-15T10:30:00Z\nx2024-01-15T10:30:00Z\n".toList
      = run_t.ok [⟨"2024-01-15T10:30:00Z".toList, 1⟩]
    ∧ ∃ st2, main_loop true TABLE_FORM (1 + 1)
          ("2024-01-15T10:30:00Z".toList ++ '\n' :: []) scan_init
          = main_loop true TABLE_FORM 1 [] st2
        ∧ st2.full_line_read = true
        ∧ ((∃ b, format_match "2024-01-15T10:30:00Z".toList UTC8601 = some (VALIDATED, b)
              ∧ st2.valid_list = (insert_or_match true scan_init.valid_list b).2)
          ∨ ((∀ b, format_match "2024-01-15T10:30:00Z".toList UTC8601 ≠ some (VALIDATED, b))
              ∧ st2.valid_list = scan_init.valid_list)) :=
  ⟨by decide, by decide,
    (table_scan_line "2024-01-15T10:30:00Z".toList [] (by decide) (by decide) 1 scan_init rfl).1⟩

/-- C19: every run of the scanner, in table mode, text mode or any other mode, on every
stream ends: it exits with MEM_ALLOC, which needs a failing allocation, or it
reports a collection in which every record holds a canonical string
(`format_match` validates it and leaves it as it is, it has exactly 20
characters ending in Z or exactly 25 characters with `+` or `-` at position 19)
and a count of at least 1. -/
theorem scan_records_canonical (alloc : Bool) (parse_form : Int) (stream : List Char) :
    (scan alloc parse_form stream = run_t.stop stop_t.MEM_ALLOC ∧ alloc = false)
      ∨ ∃ vl, scan alloc parse_form stream = run_t.ok vl
          ∧ ∀ e ∈ vl, format_match e.dtstr UTC8601 = some (VALIDATED, e.dtstr)
              ∧ ((e.dtstr.length = 20 ∧ char_at e.dtstr 19 = 'Z')
                ∨ (e.dtstr.length = 25
                    ∧ (char_at e.dtstr 19 = '+' ∨ char_at e.dtstr 19 = '-')))
              ∧ 1 ≤ e.count := by
  unfold scan
  rcases main_loop_inv alloc parse_form (stream.length + 1) stream scan_init (by omega)
    (Or.inl rfl) (fun e he => absurd he (List.not_mem_nil _)) with h | ⟨vl, h1, h2⟩
  · exact Or.inl h
  · refine Or.inr ⟨vl, h1, ?_⟩
    intro e he
    exact ⟨(h2 e he).1.1, (h2 e he).1.2, (h2 e he).2⟩

/-- C20: for every text of length 20 to 25 with correct separators at positions 4, 7,
10, 13, 16 and Z at position 19, `format_match` returns the outcome it returns on
the first 20 characters of the text and leaves exactly those 20 characters in
the buffer, whatever the outcome; for every other text it leaves the buffer
unchanged. -/
theorem format_match_zulu_trim (t : List Char) :
    ((20 ≤ t.length ∧ t.length ≤ 25 ∧ separators_ok t ∧ char_at t 19 = 'Z')
        ∧ ∃ r, format_match t UTC8601 = some (r, t.take 20)
            ∧ format_match (t.take 20) UTC8601 = some (r, t.take 20))
      ∨ (¬ (20 ≤ t.length ∧ t.length ≤ 25 ∧ separators_ok t ∧ char_at t 19 = 'Z')
          ∧ ∃ r, format_match t UTC8601 = some (r, t)) := by
  obtain ⟨⟨r, b⟩, hr⟩ := format_match_defined t UTC8601
  by_cases hc : 20 ≤ t.length ∧ t.length ≤ 25 ∧ separators_ok t ∧ char_at t 19 = 'Z'
  · left
    obtain ⟨h20, h25, hsep, hz⟩ := hc
    refine ⟨⟨h20, h25, hsep, hz⟩, r, ?_⟩
    have hb : b = t.take 20 := by
      rw [format_match_zulu t h20 h25 hsep hz] at hr
      exact format_match_checks_buffer _ _ _ _ hr
    rw [format_match_take_zulu t h20 h25 hsep hz, hr, hb]
    exact ⟨rfl, rfl⟩
  · right
    refine ⟨hc, r, ?_⟩
    have hb : b = t := by
      by_cases hshape : 20 ≤ t.length ∧ t.length ≤ 25 ∧ separators_ok t
      · obtain ⟨h20, h25, hsep⟩ := hshape
        have hz : char_at t 19 ≠ 'Z' := fun hz => hc ⟨h20, h25, hsep, hz⟩
        rw [format_match_no_zulu t h20 h25 hsep hz] at hr
        by_cases hl20 : t.length = 20
        · rw [if_pos hl20] at hr
          exact (Prod.mk.inj (Option.some.inj hr)).2.symm
        · rw [if_neg hl20] at hr
          exact format_match_checks_buffer _ _ _ _ hr
      · rw [format_match_bad_shape t hshape] at hr
        exact (Prod.mk.inj (Option.some.inj hr)).2.symm
    rw [hr, hb]

/-! ## The cursor of the window loop -/

/-- Cursor positions of the iterations of the window loop from the cursor `offset`,
in the order of the iterations: the first argument bounds their number as in
`text_window_loop`. -/
def window_cursor_trace (alloc : Bool) (line : List Char) (full_line_read : Bool) :
    Nat → Nat → List dtv_t → List Nat
  | 0, _, _ => []
  | fuel + 1, offset, valid_list =>
    offset ::
      match text_window_step alloc line full_line_read offset valid_list with
      | window_step_t.next offset2 valid_list2 =>
        window_cursor_trace alloc line full_line_read fuel offset2 valid_list2
      | window_step_t.done _ _ => []
      | window_step_t.stop _ => []

theorem text_window_step_cases (alloc : Bool) (line : List Char) (flr : Bool) (off : Nat)
    (vl : List dtv_t) (hoff : off ≤ line.length) :
    (text_window_step alloc line flr off vl = window_step_t.stop stop_t.MEM_ALLOC
        ∧ alloc = false)
      ∨ (∃ cl, text_window_step alloc line flr off vl = window_step_t.done vl cl
          ∧ cl.length ≤ line.length - off
          ∧ ((line.length - off < 25 ∧ flr = false) ∨ line.length - off < 20))
      ∨ (∃ o v, text_window_step alloc line flr off vl = window_step_t.next o v
          ∧ off < o ∧ o ≤ line.length) := by
  obtain ⟨⟨r, b⟩, hr⟩ := format_match_defined (strncpy_from line off 25) UTC8601
  have hnl : ¬ (line.length < off) := by omega
  have hblen : b.length ≤ min 25 (line.length - off) := by
    have h1 := format_match_buffer_length _ _ _ hr
    rw [window_length] at h1
    exact h1
  rw [text_window_step, if_neg hnl, hr]
  by_cases hv : r = VALIDATED
  · subst hv
    have h20 := (format_match_validated_shape _ _ hr).1
    rw [window_length] at h20
    simp only [if_true]
    by_cases hins : (insert_or_match alloc vl b).1 ≠ VALIDATED
    · rw [if_pos hins]
      exact Or.inl ⟨rfl, insert_or_match_not_validated alloc b vl (by omega) hins⟩
    · rw [if_neg hins]
      exact Or.inr (Or.inr ⟨_, _, rfl, by omega, by omega⟩)
  · simp only [hv, if_false]
    by_cases hstop : (line.length - off < 25 ∧ flr = false) ∨ line.length - off < 20
    · rw [if_pos hstop]
      exact Or.inr (Or.inl ⟨b, rfl, by omega, hstop⟩)
    · rw [if_neg hstop]
      have hge : ¬ (line.length - off < 20) := fun h => hstop (Or.inr h)
      exact Or.inr (Or.inr ⟨_, _, rfl, by omega, by omega⟩)

theorem text_window_loop_ends (alloc : Bool) (line : List Char) (flr : Bool) :
    ∀ (fuel off : Nat) (vl : List dtv_t), off ≤ line.length → line.length - off < fuel →
      (text_window_loop alloc line flr fuel off vl = run_t.stop stop_t.MEM_ALLOC ∧ alloc = false)
        ∨ ∃ vl2 cl, text_window_loop alloc line flr fuel off vl = run_t.ok (vl2, cl)
            ∧ (flr = false → cl.length ≤ 24) := by
  intro fuel
  induction fuel with
  | zero =>
    intro off vl _ hf
    exact absurd hf (Nat.not_lt_zero _)
  | succ fuel ih =>
    intro off vl hoff hf
    rw [text_window_loop]
    rcases text_window_step_cases alloc line flr off vl hoff with
      ⟨h1, h2⟩ | ⟨cl, h1, h2, h3⟩ | ⟨o, v, h1, h2, h3⟩
    · rw [h1]
      exact Or.inl ⟨rfl, h2⟩
    · rw [h1]
      refine Or.inr ⟨vl, cl, rfl, ?_⟩
      intro hflr
      rcases h3 with ⟨h4, _⟩ | h4 <;> omega
    · rw [h1]
      exact ih o v h3 (by omega)

theorem window_cursor_trace_bounds (alloc : Bool) (line : List Char) (flr : Bool) :
    ∀ (fuel off : Nat) (vl : List dtv_t), off ≤ line.length →
      (∀ o ∈ window_cursor_trace alloc line flr fuel off vl, off ≤ o ∧ o ≤ line.length)
        ∧ (window_cursor_trace alloc line flr fuel off vl).Pairwise (fun a b => a < b) := by
  intro fuel
  induction fuel with
  | zero =>
    intro off vl _
    exact ⟨fun o ho => absurd ho (List.not_mem_nil _), List.Pairwise.nil⟩
  | succ fuel ih =>
    intro off vl hoff
    rw [window_cursor_trace]
    rcases text_window_step_cases alloc line flr off vl hoff with
      ⟨h1, _⟩ | ⟨cl, h1, _, _⟩ | ⟨o, v, h1, h2, h3⟩
    · rw [h1]
      refine ⟨?_, List.pairwise_singleton _ _⟩
      intro o ho
      rw [List.mem_singleton.1 ho]
      exact ⟨le_refl _, hoff⟩
    · rw [h1]
      refine ⟨?_, List.pairwise_singleton _ _⟩
      intro o ho
      rw [List.mem_singleton.1 ho]
      exact ⟨le_refl _, hoff⟩
    · rw [h1]
      obtain ⟨hb, hp⟩ := ih o v h3
      refine ⟨?_, List.pairwise_cons.2 ⟨?_, hp⟩⟩
      · intro x hx
        rcases List.mem_cons.1 hx with h | h
        · rw [h]
          exact ⟨le_refl _, hoff⟩
        · have := hb x h
          exact ⟨by omega, this.2⟩
      · intro x hx
        have := hb x hx
        omega

theorem text_window_step_match (line : List Char) (flr : Bool) (i : Nat) (vl : List dtv_t)
    (b : List Char) (h : format_match (strncpy_from line i 25) UTC8601 = some (VALIDATED, b)) :
    i + 20 ≤ line.length
      ∧ text_window_step true line flr i vl
          = window_step_t.next (i + 20) (insert_or_match true vl b).2 := by
  have hcan := format_match_validated_canonical _ _ h
  have h20 := (format_match_validated_shape _ _ h).1
  rw [window_length] at h20
  have hlen : i + 20 ≤ line.length := by omega
  have hnl : ¬ (line.length < i) := by omega
  have hins := insert_or_match_eq_spec vl b (canonical_length b hcan)
  have hne : ¬ ((insert_or_match true vl b).1 ≠ VALIDATED) := by
    rw [hins]
    exact fun hn => hn rfl
  refine ⟨hlen, ?_⟩
  rw [text_window_step, if_neg hnl, h]
  simp only [if_true]
  rw [if_neg hne]

theorem process_chunk_table_continuation (alloc : Bool) (fill : Nat) (line : List Char)
    (last : Char) (vl : List dtv_t) (hlast : line.getLast? = some last) :
    process_chunk alloc TABLE_FORM false fill line vl
      = run_t.ok ⟨if last = '\n' then line.dropLast else line, fill, decide (last = '\n'), vl⟩ := by
  unfold process_chunk
  rw [hlast]
  simp only [if_true, table_case]

/-! ## Claims on the cursor, the carry-over and the long lines -/

/-- C21: for every text and every position `i`, if `format_match` validates the
25-character window that starts at `i`, then it validates the window at none of
the positions `i + 1`, .., `i + 19`; the match needs 20 characters from `i`, and
the pass through the loop body moves the cursor to `i + 20`. -/
theorem match_excludes_next_19 (line : List Char) (i k : Nat) (b : List Char)
    (h : format_match (strncpy_from line i 25) UTC8601 = some (VALIDATED, b))
    (hk1 : 1 ≤ k) (hk : k ≤ 19) :
    (∀ r b2, format_match (strncpy_from line (i + k) 25) UTC8601 = some (r, b2) →
        r ≠ VALIDATED)
    ∧ window_match line (i + k) = none
    ∧ i + 20 ≤ line.length
    ∧ (∀ flr vl, text_window_step true line flr i vl
        = window_step_t.next (i + 20) (insert_or_match true vl b).2) := by
  have hm : window_match line i = some b := (window_match_some _ _ _).2 h
  have hnone := window_no_overlap line i k b hm hk1 hk
  refine ⟨?_, hnone, (text_window_step_match line true i [] b h).1,
    fun flr vl => (text_window_step_match line flr i vl b h).2⟩
  intro r b2 h2 hr
  subst hr
  rw [(window_match_some _ _ _).2 h2] at hnone
  exact absurd hnone (by simp)

/-- Witness of C21: two timestamps 5 characters apart cannot both be read; after the
match at 0 of `2024-01-15T10:30:00Z2024-01-15T10:30:00Z` the window at 5 is not
validated and the one at 20 is. -/
theorem match_excludes_next_19_witness :
    format_match (strncpy_from "2024-01-15T10:30:00Z2024-01-15T10:30:00Z".toList 0 25) UTC8601
      = some (VALIDATED, "2024-01-15T10:30:00Z".toList)
    ∧ window_match "2024-01-15T10:30:00Z2024-01-15T10:30:00Z".toList (0 + 5) = none
    ∧ window_match "2024-01-15T10:30:00Z2024-01-15T10:30:00Z".toList 20
      = some "2024-01-15T10:30:00Z".toList :=
  ⟨by decide,
    (match_excludes_next_19 "2024-01-15T10:30:00Z2024-01-15T10:30:00Z".toList 0 5
      "2024-01-15T10:30:00Z".toList (by decide) (by decide) (by decide)).2.1,
    by decide⟩

/-- C24: for every buffer content, either value of the line-boundary flag and every
collection, the window loop started at cursor 0 ends within `strlen(line) + 1`
iterations (with its result, or with the exit after a failed allocation); the
cursor of every iteration is at most the length of the content, the cursors
strictly increase from one iteration to the next, and a pass through the loop
body at a cursor within the content never reads outside it and, when the loop
goes on, leaves a larger cursor that is again within the content. -/
theorem text_window_loop_terminates (alloc : Bool) (line : List Char) (flr : Bool)
    (vl : List dtv_t) :
    ((text_window_loop alloc line flr (line.length + 1) 0 vl = run_t.stop stop_t.MEM_ALLOC
        ∧ alloc = false)
      ∨ ∃ vl2 cl, text_window_loop alloc line flr (line.length + 1) 0 vl = run_t.ok (vl2, cl))
    ∧ (∀ o ∈ window_cursor_trace alloc line flr (line.length + 1) 0 vl, o ≤ line.length)
    ∧ (window_cursor_trace alloc line flr (line.length + 1) 0 vl).Pairwise (fun a b => a < b)
    ∧ (∀ off vl1, off ≤ line.length →
        text_window_step alloc line flr off vl1 ≠ window_step_t.stop stop_t.UNDEFINED)
    ∧ (∀ off vl1 o v, off ≤ line.length →
        text_window_step alloc line flr off vl1 = window_step_t.next o v →
        off < o ∧ o ≤ line.length) := by
  have hb := window_cursor_trace_bounds alloc line flr (line.length + 1) 0 vl (Nat.zero_le _)
  refine ⟨?_, fun o ho => (hb.1 o ho).2, hb.2, ?_, ?_⟩
  · rcases text_window_loop_ends alloc line flr (line.length + 1) 0 vl (Nat.zero_le _)
      (by omega) with h | ⟨vl2, cl, h, _⟩
    · exact Or.inl h
    · exact Or.inr ⟨vl2, cl, h⟩
  · intro off vl1 hoff hu
    rcases text_window_step_cases alloc line flr off vl1 hoff with
      ⟨h1, _⟩ | ⟨cl, h1, _, _⟩ | ⟨o, v, h1, _, _⟩
    · rw [h1] at hu
      exact absurd hu (by decide)
    · rw [h1] at hu
      exact absurd hu (by simp)
    · rw [h1] at hu
      exact absurd hu (by simp)
  · intro off vl1 o v hoff hn
    rcases text_window_step_cases alloc line flr off vl1 hoff with
      ⟨h1, _⟩ | ⟨cl, h1, _, _⟩ | ⟨o2, v2, h1, h2, h3⟩
    · rw [h1] at hn
      exact absurd hn (by simp)
    · rw [h1] at hn
      exact absurd hn (by simp)
    · rw [h1] at hn
      have e : o2 = o := by
        injection hn
      rw [← e]
      exact ⟨h2, h3⟩

/-- Carry-over of the chunk that ends `...x2024-13-15T10:30:00Z2024` after 475 times
`x`: the window loop leaves the trimmed window in `clean_line`. -/
theorem process_chunk_trimmed_carry :
    process_chunk true TEXT_FORM true MAX_LINE_LEN
        (List.replicate 475 'x' ++ "2024-13-15T10:30:00Z2024".toList) []
      = run_t.ok ⟨"2024-13-15T10:30:00Z".toList, 480, false, []⟩ := by
  have hx : 'x' ≠ '-' := by decide
  have hloop : text_window_loop true
        (List.replicate 475 'x' ++ "2024-13-15T10:30:00Z2024".toList) false 500 0 []
      = run_t.ok ([], "2024-13-15T10:30:00Z".toList) := by
    rw [show (500 : Nat) = 29 + 471 from rfl,
      text_window_loop_drop_filler true 475 'x' _ false 29 [] hx 471 (by decide) (by decide)]
    decide
  have hlast : (List.replicate 475 'x' ++ "2024-13-15T10:30:00Z2024".toList).getLast?
      = some '4' := by
    decide!
  have hlen : (List.replicate 475 'x' ++ "2024-13-15T10:30:00Z2024".toList).length + 1
      = 500 := by
    decide!
  have h4 : '4' ≠ '\n' := by decide
  have h := process_chunk_partial_text true true MAX_LINE_LEN _ '4' [] []
    "2024-13-15T10:30:00Z".toList hlast h4 (by rw [hlen]; exact hloop)
  rw [h]
  rfl

/-- C22: evaluation at the buffer `2024-13-15T10:30:00Z2024`, which does not end at a
line boundary. The loop ends in its first pass, at cursor 0, where 24 characters
remain, so the content from the cursor to the end of the buffer is the whole
buffer; `format_match` rejects the window (month 13) after it has cut
`clean_line` behind the Z, and the text carried over is `2024-13-15T10:30:00Z`:
the characters `2024` are dropped. The same happens at the end of a chunk of 499
characters, and the next buffer is that carry-over followed by the next chunk.
What holds for every buffer: the carry-over has at most 24 characters, and the
next chunk is stored directly behind it. -/
theorem text_carry_over_trimmed :
    text_window_step true "2024-13-15T10:30:00Z2024".toList false 0 []
      = window_step_t.done [] "2024-13-15T10:30:00Z".toList
    ∧ List.drop 0 "2024-13-15T10:30:00Z2024".toList = "2024-13-15T10:30:00Z2024".toList
    ∧ process_chunk true TEXT_FORM true MAX_LINE_LEN "2024-13-15T10:30:00Z2024".toList []
      = run_t.ok ⟨"2024-13-15T10:30:00Z".toList, 480, false, []⟩
    ∧ process_chunk true TEXT_FORM true MAX_LINE_LEN
        (List.replicate 475 'x' ++ "2024-13-15T10:30:00Z2024".toList) []
      = run_t.ok ⟨"2024-13-15T10:30:00Z".toList, 480, false, []⟩
    ∧ buffer_store "2024-13-15T10:30:00Z".toList (MAX_LINE_LEN - 480) "-01-15T10:30:00Z\n".toList
      = "2024-13-15T10:30:00Z-01-15T10:30:00Z\n".toList
    ∧ (∀ (alloc : Bool) (line : List Char) (vl vl2 : List dtv_t) (cl : List Char),
        text_window_loop alloc line false (line.length + 1) 0 vl = run_t.ok (vl2, cl) →
        cl.length ≤ 24)
    ∧ (∀ cl chunk : List Char, cl.length ≤ 24 →
        buffer_store cl (MAX_LINE_LEN - (MAX_LINE_LEN - cl.length)) chunk = cl ++ chunk) := by
  refine ⟨by decide, rfl, by decide, process_chunk_trimmed_carry, by decide, ?_, ?_⟩
  · intro alloc line vl vl2 cl h
    rcases text_window_loop_ends alloc line false (line.length + 1) 0 vl (Nat.zero_le _)
      (by omega) with ⟨h1, _⟩ | ⟨vl3, cl3, h1, h2⟩
    · rw [h1] at h
      exact absurd h (by simp)
    · rw [h1] at h
      have e : cl3 = cl := by
        injection h with h3
        injection h3
      rw [← e]
      exact h2 rfl
  · intro cl chunk hcl
    have hmax : MAX_LINE_LEN = 500 := rfl
    have e : MAX_LINE_LEN - (MAX_LINE_LEN - cl.length) = cl.length := by omega
    rw [e]
    unfold buffer_store
    rw [if_pos (le_refl _), List.take_length]

/-- C23: in table mode, a chunk read after a chunk that did not end its line is not
given to `format_match`: the pass through the loop body leaves the collection as
it was, whatever the chunk holds, and sets the line-boundary flag by the last
character of the chunk, so that the chunk after the end of the long line is a new
line again. A line of 499 times `x` followed by `2024-01-15T10:30:00Z` yields no
record for that timestamp, and the next line `2024-02-15T10:30:00Z` is recorded. -/
theorem table_scan_continuation (alloc : Bool) (fuel : Nat) (stream chunk rest : List Char)
    (st : scan_state) (hst : st.full_line_read = false)
    (hfill : st.line_fill_amount = MAX_LINE_LEN)
    (hget : fgets MAX_LINE_LEN stream = some (chunk, rest)) :
    (∃ st2, main_loop alloc TABLE_FORM (fuel + 1) stream st
          = main_loop alloc TABLE_FORM fuel rest st2
        ∧ st2.valid_list = st.valid_list
        ∧ st2.line_fill_amount = MAX_LINE_LEN
        ∧ (st2.full_line_read = true ↔ chunk.getLast? = some '\n'))
    ∧ format_match "2024-01-15T10:30:00Z".toList UTC8601
      = some (VALIDATED, "2024-01-15T10:30:00Z".toList)
    ∧ scan true TABLE_FORM
        (List.replicate 499 'x' ++ "2024-01-15T10:30:00Z\n2024-02-15T10:30:00Z\n".toList)
      = run_t.ok [⟨"2024-02-15T10:30:00Z".toList, 1⟩] := by
  refine ⟨?_, by decide, by decide!⟩
  obtain ⟨hchunk, _⟩ := fgets_progress MAX_LINE_LEN stream chunk rest (by decide) hget
  cases hlast : chunk.getLast? with
  | none => exact absurd (List.getLast?_eq_none_iff.1 hlast) hchunk
  | some last =>
    have hne : ¬ (false = true) := by decide
    have hif : (if false = true then MAX_LINE_LEN else st.line_fill_amount)
        = MAX_LINE_LEN := by
      rw [if_neg hne, hfill]
    rw [main_loop_succ, hst]
    simp only [hif, hget, Nat.sub_self, buffer_store_start,
      process_chunk_table_continuation alloc MAX_LINE_LEN chunk last st.valid_list hlast]
    refine ⟨_, rfl, rfl, rfl, ?_⟩
    simp

/-- Witness of C23: the chunk `2024-01-15T10:30:00Z` read as the continuation of a
long line leaves the empty collection empty. -/
theorem table_scan_continuation_witness :
    ∃ st2, main_loop true TABLE_FORM (1 + 1) "2024-01-15T10:30:00Z\n".toList
          ⟨"xxx".toList, MAX_LINE_LEN, false, []⟩
          = main_loop true TABLE_FORM 1 [] st2
        ∧ st2.valid_list = []
        ∧ st2.line_fill_amount = MAX_LINE_LEN
        ∧ (st2.full_line_read = true ↔ "2024-01-15T10:30:00Z\n".toList.getLast? = some '\n') :=
  (table_scan_continuation true 1 "2024-01-15T10:30:00Z\n".toList
    "2024-01-15T10:30:00Z\n".toList [] ⟨"xxx".toList, MAX_LINE_LEN, false, []⟩ rfl rfl
    (by decide)).1

end UTClib
